import Mathlib

/-!
# Verification of the myNewMangaUI scan/indexing core

A shallow embedding, in Lean 4, of the scan engine of the repository
(Go package `scan`, plus the SQLite schema of `0001_bootstrap.sql`),
with theorems settling the frozen claims about its specification.

Modelling conventions:
* machine integers are `Nat`/`Int` with explicit `% 2^w` where overflow matters;
* `time.Time` values are modelled as `Int` (nanoseconds since epoch, UTC);
  the Go zero time is `0`, `t.After u` is `t > u`, `t.IsZero` is `t = 0`;
* `sql.NullFloat64` chapter numbers are modelled as `Option ℚ` with exact
  decimal semantics (every value the claims mention, such as `12.0` and
  `4.5`, is exactly representable in a Go `float64`, so the rational model
  agrees with the code on all inputs the claims are about);
* fallible operations return `Except`/`Option`;
* the SQLite tables are lists of rows; an `ON CONFLICT(path) DO UPDATE`
  upsert updates the rows whose `path` column matches and otherwise appends,
  exactly as the statements in the source are written.
-/

namespace Manga

/-! ## Bytes and SHA-1 (model of Go `crypto/sha1`)

`stableID` hashes the cleaned path with SHA-1.  We implement SHA-1
(FIPS 180-4) over `Nat` with explicit reduction modulo `2^32`. -/

/-- Reduce a natural number to a 32-bit word. -/
def w32 (x : Nat) : Nat := x % 4294967296

/-- Left-rotate a 32-bit word by `k` bits. -/
def rotl32 (x k : Nat) : Nat := w32 (x <<< k) ||| (w32 x >>> (32 - k))

/-- One SHA-1 chaining state (five 32-bit words). -/
structure SHA1St where
  a : Nat
  b : Nat
  c : Nat
  d : Nat
  e : Nat
deriving DecidableEq

/-- The SHA-1 round function `f` for round `i`. -/
def sha1F (i b c d : Nat) : Nat :=
  if i < 20 then (b &&& c) ||| ((b ^^^ 4294967295) &&& d)
  else if i < 40 then b ^^^ c ^^^ d
  else if i < 60 then (b &&& c) ||| (b &&& d) ||| (c &&& d)
  else b ^^^ c ^^^ d

/-- The SHA-1 round constant for round `i`. -/
def sha1K (i : Nat) : Nat :=
  if i < 20 then 0x5A827999
  else if i < 40 then 0x6ED9EBA1
  else if i < 60 then 0x8F1BBCDC
  else 0xCA62C1D6

/-- Pack a byte list into big-endian 32-bit words (four bytes per word). -/
def words16 : List Nat → List Nat
  | b0 :: b1 :: b2 :: b3 :: rest =>
      (b0 <<< 24 ||| b1 <<< 16 ||| b2 <<< 8 ||| b3) :: words16 rest
  | _ => []

/-- Extend the 16 words of a block to the 80-word message schedule. -/
def sha1Schedule (block : List Nat) : List Nat :=
  (List.range 64).foldl
    (fun w _ =>
      let n := w.length
      w ++ [rotl32 ((w.getD (n - 3) 0) ^^^ (w.getD (n - 8) 0) ^^^
                    (w.getD (n - 14) 0) ^^^ (w.getD (n - 16) 0)) 1])
    (words16 block)

/-- One SHA-1 round: update the five-word state with word `wi` of round `i`. -/
def sha1Step (st : SHA1St) (p : Nat × Nat) : SHA1St :=
  let t := w32 (rotl32 st.a 5 + sha1F p.1 st.b st.c st.d + st.e + sha1K p.1 + p.2)
  ⟨t, st.a, rotl32 st.b 30, st.c, st.d⟩

/-- Compress one 64-byte block into the chaining state. -/
def sha1Compress (h : SHA1St) (block : List Nat) : SHA1St :=
  let st := ((List.range 80).zip (sha1Schedule block)).foldl sha1Step h
  ⟨w32 (h.a + st.a), w32 (h.b + st.b), w32 (h.c + st.c),
   w32 (h.d + st.d), w32 (h.e + st.e)⟩

/-- Big-endian byte decomposition of `n` into `k` bytes. -/
def toBytesBE (k n : Nat) : List Nat :=
  (List.range k).reverse.map fun i => (n >>> (8 * i)) % 256

/-- SHA-1 padding: `0x80`, zeros to 56 mod 64, then the 64-bit bit length. -/
def sha1Pad (msg : List Nat) : List Nat :=
  msg ++ (128 :: List.replicate ((119 - msg.length % 64) % 64) 0) ++
    toBytesBE 8 ((msg.length * 8) % 18446744073709551616)

/-- Split a byte list into 64-byte chunks (structural recursion on a fuel
argument so that the kernel can evaluate it; the fuel in `chunk64` is always
sufficient because every chunk consumes at least one byte). -/
def chunk64Aux : Nat → List Nat → List (List Nat)
  | 0, _ => []
  | _, [] => []
  | fuel + 1, l => l.take 64 :: chunk64Aux fuel (l.drop 64)

/-- Split a byte list into 64-byte chunks. -/
def chunk64 (l : List Nat) : List (List Nat) := chunk64Aux l.length l

/-- The SHA-1 initialization vector. -/
def sha1Init : SHA1St := ⟨0x67452301, 0xEFCDAB89, 0x98BADCFE, 0x10325476, 0xC3D2E1F0⟩

/-- SHA-1 digest of a byte list: twenty bytes. Model of Go `sha1.Sum`. -/
def sha1 (msg : List Nat) : List Nat :=
  let h := (chunk64 (sha1Pad msg)).foldl sha1Compress sha1Init
  toBytesBE 4 h.a ++ toBytesBE 4 h.b ++ toBytesBE 4 h.c ++
    toBytesBE 4 h.d ++ toBytesBE 4 h.e

/-- The `i`-th lowercase hexadecimal digit. -/
def hexDigit (n : Nat) : Char := if n < 10 then Char.ofNat (48 + n) else Char.ofNat (87 + n)

/-- Lowercase hex expansion of a byte list, two characters per byte.
Model of Go `hex.EncodeToString`. -/
def hexBytes : List Nat → List Char
  | [] => []
  | b :: rest => hexDigit (b / 16) :: hexDigit (b % 16) :: hexBytes rest

/-- UTF-8 encoding of one character (Go strings are UTF-8 byte sequences). -/
def utf8Encode (c : Char) : List Nat :=
  let n := c.toNat
  if n < 128 then [n]
  else if n < 2048 then [192 + n / 64, 128 + n % 64]
  else if n < 65536 then [224 + n / 4096, 128 + (n / 64) % 64, 128 + n % 64]
  else [240 + n / 262144, 128 + (n / 4096) % 64, 128 + (n / 64) % 64, 128 + n % 64]

/-- The UTF-8 bytes of a string, as Go's `[]byte(s)` conversion produces. -/
def strBytes (s : String) : List Nat := s.data.foldr (fun c acc => utf8Encode c ++ acc) []

/-! ## Path cleaning (model of Go `path/filepath.Clean` on `/`-separated paths)

Go's `Clean` removes `.` components, empty components, resolves `..`
against preceding components (at the root, `..` disappears), and returns
`"."` for an empty result.  The model below processes the `/`-separated
components of the path in order, which produces the same cleaned path. -/

/-- Process one path component against the stack of kept components
(`rooted` tells whether the path is absolute). -/
def cleanStep (rooted : Bool) (acc : List String) (c : String) : List String :=
  if c = ".." then
    match acc with
    | [] => if rooted then [] else [".."]
    | prev :: rest => if prev = ".." then c :: acc else rest
  else c :: acc

/-- Split a character list on `/` (the behavior of `strings.Split` and of
`String.splitOn "/"`, written as a structural recursion so that the kernel
can evaluate it). -/
def splitSlash : List Char → List Char → List String
  | cur, [] => [String.mk cur.reverse]
  | cur, c :: rest =>
      if c = '/' then String.mk cur.reverse :: splitSlash [] rest
      else splitSlash (c :: cur) rest

/-- Whether a path begins with the separator. -/
def headIsSlash (p : String) : Bool :=
  match p.data with
  | '/' :: _ => true
  | _ => false

/-- Interleave path components with `/`. -/
def interSlash : List String → List Char
  | [] => []
  | [x] => x.data
  | x :: y :: rest => x.data ++ '/' :: interSlash (y :: rest)

/-- Model of Go `filepath.Clean` (Unix separators). -/
def cleanPath (p : String) : String :=
  if p = "" then "." else
  let rooted := headIsSlash p
  let comps := (splitSlash [] p.data).filter fun c => ¬ (c = "" ∨ c = ".")
  let out := (comps.foldl (cleanStep rooted) []).reverse
  let body := String.mk (interSlash out)
  if rooted then "/" ++ body
  else if body = "" then "." else body

/-- Stable entity identifier: the kind tag, an underscore, and the lowercase
hex SHA-1 of the cleaned path.  Model of the source's `stableID` (the Go
parameter is named after the tag's role as an id namespace). -/
def stableID (tag path : String) : String :=
  tag ++ "_" ++ String.mk (hexBytes (sha1 (strBytes (cleanPath path))))

/-! ## Natural ordering (model of the source's `naturalKey` / `naturalLess`)

`naturalKey` lowercases its input, then rewrites every maximal digit run to
an eight-wide zero-padded decimal (via `fmt.Sprintf` with the `%08d` verb;
if `strconv.Atoi` fails — for digit runs whose value exceeds the signed
64-bit range — the raw run is kept).  `naturalLess` compares the keys with
Go's lexicographic string order. -/

/-- Go's digit test in `naturalKey`: `r >= '0' && r <= '9'`. -/
def isDigitCh (c : Char) : Bool := '0' ≤ c && c ≤ '9'

/-- ASCII lowercasing of one character: the model of Go `strings.ToLower`
(the inputs the scanner compares are file names; the claims involve only
ASCII, where Unicode simple case folding agrees with this). -/
def lowerCh (c : Char) : Char :=
  if 'A' ≤ c ∧ c ≤ 'Z' then Char.ofNat (c.toNat + 32) else c

/-- Numeric value of a decimal digit run, as `strconv.Atoi` computes it. -/
def digitsToNat (l : List Char) : Nat := l.foldl (fun a c => 10 * a + (c.toNat - 48)) 0

/-- The decimal digit character for `n < 10`. -/
def digitChar (n : Nat) : Char := Char.ofNat (48 + n)

/-- Unpadded decimal representation (fuel-based so the kernel can reduce it;
`n + 1` units of fuel always suffice since a number has at most as many
digits as its magnitude). -/
def decDigitsAux : Nat → Nat → List Char
  | 0, _ => []
  | fuel + 1, n => if n < 10 then [digitChar n] else decDigitsAux fuel (n / 10) ++ [digitChar (n % 10)]

/-- Unpadded decimal representation of a natural number. -/
def decDigits (n : Nat) : List Char := decDigitsAux (n + 1) n

/-- Model of `fmt.Sprintf` with verb `%08d` on a nonnegative value: decimal,
zero-padded on the left to a minimum width of eight. -/
def pad8 (n : Nat) : List Char :=
  List.replicate (8 - (decDigits n).length) '0' ++ decDigits n

/-- The `flushDigits` closure of `naturalKey`: an empty run emits nothing; a
run within the signed 64-bit range is emitted zero-padded; a run overflowing
`strconv.Atoi` is emitted verbatim. -/
def flushDigits (seg : List Char) : List Char :=
  if seg = [] then []
  else if digitsToNat seg < 9223372036854775808 then pad8 (digitsToNat seg) else seg

/-- The rune loop of `naturalKey`: accumulate digit runs, flush them at
non-digit boundaries and at the end. -/
def naturalKeyAux : List Char → List Char → List Char
  | [], seg => flushDigits seg
  | c :: rest, seg =>
      if isDigitCh c then naturalKeyAux rest (seg ++ [c])
      else flushDigits seg ++ c :: naturalKeyAux rest []

/-- Model of the source's `naturalKey`. -/
def naturalKey (s : String) : List Char := naturalKeyAux (s.data.map lowerCh) []

/-- Lexicographic strict comparison of character lists.  Go compares strings
byte-lexicographically; on UTF-8 strings that coincides with codepoint
lexicographic order, which this computes. -/
def lexLtB : List Char → List Char → Bool
  | [], [] => false
  | [], _ :: _ => true
  | _ :: _, [] => false
  | a :: as, b :: bs => if a < b then true else if b < a then false else lexLtB as bs

/-- Model of the source's `naturalLess`: Go string `<` on the two keys. -/
def naturalLess (a b : String) : Bool := lexLtB (naturalKey a) (naturalKey b)

/-- Insert into a sorted list (used to model `sort.Slice`: any sort
consistent with the comparator; the scanner never relies on tie order). -/
def insertBy {α : Type} (less : α → α → Bool) (x : α) : List α → List α
  | [] => [x]
  | y :: ys => if less x y then x :: y :: ys else y :: insertBy less x ys

/-- Sort a list with a boolean comparator (model of Go `sort.Slice`). -/
def sortBy {α : Type} (less : α → α → Bool) : List α → List α
  | [] => []
  | x :: xs => insertBy less x (sortBy less xs)

/-- The `k`-digit zero-padded decimal form of `n % 10^k`, most significant
digit first. -/
def fixDigits : Nat → Nat → List Char
  | 0, _ => []
  | k + 1, n => digitChar (n / 10 ^ k) :: fixDigits k (n % 10 ^ k)

/-! ## Chapter number extraction

Model of `parseChapterNumber` and the compiled pattern
`chapterNumberPattern`, i.e. a case-insensitive optional `ch`/`chapter`
label, optional whitespace, then digits with an optional decimal part,
with leftmost-first matching and a greedy optional label (Go `regexp`
uses leftmost-first semantics, and `FindStringSubmatch` returns the first
position at which the pattern matches; the capture group is the number
text).  The matched text is parsed by `strconv.ParseFloat`; the model
uses exact rationals, adequate because the claims only involve decimals
that are exactly representable in a `float64`, and reproduces
`ParseFloat`'s range failure: values at or above the float64 rounding
overflow threshold yield an error, hence an absent number. -/

/-- Go regexp whitespace class: space, tab, newline, form feed, carriage
return. -/
def isWSCh (c : Char) : Bool :=
  c = ' ' || c = '\t' || c = '\n' || c = '\x0c' || c = '\r'

/-- Match `\d+(\.\d+)?` greedily at the start of `cs`, returning the
matched text. -/
def matchNumberAt (cs : List Char) : Option (List Char) :=
  let d := cs.takeWhile isDigitCh
  if d = [] then none else
  match cs.dropWhile isDigitCh with
  | '.' :: rest2 =>
      let d2 := rest2.takeWhile isDigitCh
      if d2 = [] then some d else some (d ++ '.' :: d2)
  | _ => some d

/-- Strip a lowercase literal from `cs`, case-insensitively. -/
def stripCI : List Char → List Char → Option (List Char)
  | [], cs => some cs
  | _ :: _, [] => none
  | p :: ps, c :: cs => if lowerCh c = p then stripCI ps cs else none

/-- One attempt of the pattern at the current position: the greedy optional
label (`chapter` before `ch`, as the backtracking engine prefers the longer
alternative of the greedy group) followed by any whitespace, then the
number; or the number alone. -/
def tryParseAt (cs : List Char) : Option (List Char) :=
  (stripCI "chapter".data cs >>= fun r => matchNumberAt (r.dropWhile isWSCh)) <|>
    ((stripCI "ch".data cs >>= fun r => matchNumberAt (r.dropWhile isWSCh)) <|>
      matchNumberAt cs)

/-- Leftmost match of the chapter-number pattern over the whole name. -/
def findChapterNumber : List Char → Option (List Char)
  | [] => none
  | c :: rest => tryParseAt (c :: rest) <|> findChapterNumber rest

/-- The float64 positive overflow threshold of round-to-nearest-even:
decimal values at or above `2^1024 - 2^970` round to infinity, making
`strconv.ParseFloat` report a range error. -/
def maxFloat64Bound : ℚ := (2 ^ 1024 : ℚ) - 2 ^ 970

/-- Exact decimal value of a matched number text (digits with an optional
single decimal point), or `none` on `ParseFloat` range overflow. -/
def parseDecQ (cs : List Char) : Option ℚ :=
  let intPart := cs.takeWhile isDigitCh
  let q : ℚ :=
    match cs.dropWhile isDigitCh with
    | '.' :: frac => (digitsToNat intPart : ℚ) + (digitsToNat frac : ℚ) / (10 : ℚ) ^ frac.length
    | _ => (digitsToNat intPart : ℚ)
  if maxFloat64Bound ≤ q then none else some q

/-- Model of the source's `parseChapterNumber`: the first pattern match
parsed as a number, absent (never an error) when there is no match or the
matched text fails to parse. -/
def parseChapterNumber (name : String) : Option ℚ :=
  match findChapterNumber name.data with
  | none => none
  | some t => parseDecQ t

/-! ## Filesystem model

The filesystem collaborator is modelled as a flat list of entries, each
carrying its path (as the list of path components from the root), a
directory flag, and the stat data the scanner reads (size, mtime as `Int`
nanoseconds, UTC).  Directory listings are produced sorted by name, as Go
`os.ReadDir` guarantees, and the recursive walk enumerates a directory's
regular files in `filepath.WalkDir` order (depth-first, siblings sorted by
name), which on component lists is exactly their lexicographic order.
Paths are modelled as absolute. -/

structure FSEntry where
  comps : List String
  isDir : Bool
  size : Int
  mtime : Int
deriving DecidableEq

/-- A filesystem: the flat list of its entries. -/
abbrev FS := List FSEntry

/-- Byte-order comparison of two strings (Go string `<`). -/
def strLtB (a b : String) : Bool := lexLtB a.data b.data

/-- Lexicographic order on component lists: the walk order of files. -/
def compsLtB : List String → List String → Bool
  | [], [] => false
  | [], _ :: _ => true
  | _ :: _, [] => false
  | a :: as, b :: bs => if strLtB a b then true else if strLtB b a then false else compsLtB as bs

/-- Model of `filepath.Join` on two elements. -/
def joinPath (a b : String) : String := cleanPath (a ++ "/" ++ b)

/-- The components of a cleaned path. -/
def pathComps (p : String) : List String :=
  (splitSlash [] (cleanPath p).data).filter fun c => ¬ (c = "" ∨ c = ".")

/-- The absolute path string of a component list. -/
def compsPath (comps : List String) : String := "/" ++ String.mk (interSlash comps)

/-- The file name of an entry (its last component). -/
def entryName (e : FSEntry) : String := e.comps.getLastD ""

/-- Look up the entry at a path. -/
def findEntry (fs : FS) (comps : List String) : Option FSEntry :=
  fs.find? fun e => e.comps = comps

/-- The immediate children of a directory, sorted by name as `os.ReadDir`
returns them. -/
def dirChildren (fs : FS) (base : List String) : List FSEntry :=
  sortBy (fun a b => compsLtB a.comps b.comps)
    (fs.filter fun e => e.comps.length = base.length + 1 ∧ e.comps.take base.length = base)

/-- Model of `os.ReadDir`: the sorted children of a directory, or an error
(`none`) when the path is missing or not a directory. -/
def readDirM (fs : FS) (p : String) : Option (List FSEntry) :=
  match findEntry fs (pathComps p) with
  | some e => if e.isDir then some (dirChildren fs (pathComps p)) else none
  | none => none

/-- The regular files of a directory's subtree in `filepath.WalkDir` visit
order (lexicographic on component lists). -/
def subtreeFiles (fs : FS) (base : List String) : List FSEntry :=
  sortBy (fun a b => compsLtB a.comps b.comps)
    (fs.filter fun e =>
      ¬ e.isDir ∧ e.comps.take base.length = base ∧ base.length < e.comps.length)

/-- Model of `filepath.WalkDir` restricted to what `collectChapter` does
with it: the sequence of regular files visited under `p` (the walk of a
regular file visits just that file), or an error for a missing root. -/
def walkFiles (fs : FS) (p : String) : Option (List FSEntry) :=
  match findEntry fs (pathComps p) with
  | none => none
  | some e => if e.isDir then some (subtreeFiles fs (pathComps p)) else some [e]

/-! ## Small helpers of the scan package -/

/-- Model of Go `strings.ToLower` (ASCII; see `lowerCh`). -/
def lowerStr (s : String) : String := String.mk (s.data.map lowerCh)

/-- Scan a reversed path for its extension: stop at a path separator,
collect up to a dot.  Model of `filepath.Ext`. -/
def extAux : List Char → List Char → Option (List Char)
  | [], _ => none
  | c :: rest, acc =>
      if c = '/' then none else if c = '.' then some (c :: acc) else extAux rest (c :: acc)

/-- Model of `filepath.Ext`: the suffix of the last component starting at
its final dot, or the empty string. -/
def extname (p : String) : String :=
  match extAux p.data.reverse [] with
  | none => ""
  | some l => String.mk l

/-- Model of `filepath.Base`: the last element of the path, after dropping
trailing separators; `"."` for the empty path, `"/"` for all-separators. -/
def basename (p : String) : String :=
  if p = "" then "." else
  let l := p.data.reverse.dropWhile fun c => c = '/'
  if l = [] then "/" else String.mk (l.takeWhile fun c => ¬ (c = '/')).reverse

/-- Model of the source's `isImageFile`: the lowercased extension is in the
fixed allow-list. -/
def isImageFile (p : String) : Bool :=
  let e := lowerStr (extname p)
  e = ".jpg" ∨ e = ".jpeg" ∨ e = ".png" ∨ e = ".webp"

/-- Model of the source's `mimeFromExt`. -/
def mimeFromExt (ext : String) : String :=
  let e := lowerStr ext
  if e = ".jpg" ∨ e = ".jpeg" then "image/jpeg"
  else if e = ".png" then "image/png"
  else if e = ".webp" then "image/webp"
  else "application/octet-stream"

/-! ## Database model

The four tables the scanner can see, as lists of rows (row order models
SQLite heap order: updates rewrite rows in place, inserts append).  Only
the columns of the bootstrap schema appear; `created_at`/`updated_at`
timestamps are omitted, being wall-clock-valued and not derivable data.
The `page` table's `UNIQUE (chapter_id, page_index)` constraint is
enforced by the model exactly as SQLite enforces it on an upsert whose
`ON CONFLICT` target is `path`: a violation by the inserted or updated row
fails the statement.  Primary-key conflicts on `id` would require a SHA-1
collision between distinct cleaned paths and are outside the model. -/

structure MangaRow where
  id : String
  title : String
  title_sort : String
  path : String
  cover_page_id : Option String
  chapter_count : Nat
  page_count : Nat
  last_scan_at : Option Int
deriving DecidableEq

structure ChapterRow where
  id : String
  manga_id : String
  title : String
  number : Option ℚ
  volume : Option String
  path : String
  page_count : Nat
  file_mtime : Option Int
deriving DecidableEq

structure PageRow where
  id : String
  chapter_id : String
  page_index : Nat
  path : String
  mime : String
  width : Option Int
  height : Option Int
  size_bytes : Int
  file_mtime : Option Int
  checksum : Option String
deriving DecidableEq

structure ProgressRow where
  id : String
  manga_id : String
  chapter_id : String
  page_index : Nat
deriving DecidableEq

structure DB where
  manga : List MangaRow
  chapter : List ChapterRow
  page : List PageRow
  progress : List ProgressRow
deriving DecidableEq

/-- The `upsertManga` statement: keyed on `path`; the update clause sets
only `title` and `title_sort` (plus `updated_at`, not modelled). -/
def upsertMangaRows (rows : List MangaRow) (id title path : String) : List MangaRow :=
  if rows.any fun r => r.path = path then
    rows.map fun r =>
      if r.path = path then { r with title := title, title_sort := lowerStr title } else r
  else
    rows ++ [{ id := id, title := title, title_sort := lowerStr title, path := path,
               cover_page_id := none, chapter_count := 0, page_count := 0,
               last_scan_at := none }]

/-- The `upsertChapter` statement: keyed on `path`; the update clause sets
`title`, `number`, `page_count`, `file_mtime`. -/
def upsertChapterRows (rows : List ChapterRow) (id mangaId title : String)
    (number : Option ℚ) (path : String) (pageCount : Nat) (mtime : Int) :
    List ChapterRow :=
  if rows.any fun r => r.path = path then
    rows.map fun r =>
      if r.path = path then
        { r with title := title, number := number, page_count := pageCount,
                 file_mtime := some mtime }
      else r
  else
    rows ++ [{ id := id, manga_id := mangaId, title := title, number := number,
               volume := none, path := path, page_count := pageCount,
               file_mtime := some mtime }]

/-- The row rewrite of one `upsertPages` statement (before its constraint
check): keyed on `path`; the update clause sets `chapter_id`, `page_index`,
`mime`, `width`, `height`, `size_bytes`, `file_mtime` — not `checksum`.
The scanner always binds `width`/`height` as NULL and `checksum` as NULL. -/
def pageWrite (rows : List PageRow) (id chapterId : String) (idx : Nat)
    (path mime : String) (size : Int) (mtime : Int) : List PageRow :=
  if rows.any fun r => r.path = path then
    rows.map fun r =>
      if r.path = path then
        { r with chapter_id := chapterId, page_index := idx, mime := mime,
                 width := none, height := none, size_bytes := size,
                 file_mtime := some mtime }
      else r
  else
    rows ++ [{ id := id, chapter_id := chapterId, page_index := idx, path := path,
               mime := mime, width := none, height := none, size_bytes := size,
               file_mtime := some mtime, checksum := none }]

/-- The `UNIQUE (chapter_id, page_index)` check SQLite performs on the row
written at `path`: another row with the same pair fails the statement. -/
def pageConflict (rows : List PageRow) (path chapterId : String) (idx : Nat) : Bool :=
  rows.any fun r => r.path ≠ path ∧ r.chapter_id = chapterId ∧ r.page_index = idx

/-- The `finalizeMangaScan` statement: `UPDATE manga SET ... WHERE id = ?`. -/
def finalizeRows (rows : List MangaRow) (mangaId : String)
    (chapterCount pageCount : Nat) (lastScan : Option Int) : List MangaRow :=
  rows.map fun r =>
    if r.id = mangaId then
      { r with chapter_count := chapterCount, page_count := pageCount,
               last_scan_at := lastScan }
    else r

/-! ## The scan orchestrator

Effects are made explicit: a `ScanSt` counts context polls and storage
write attempts.  The cancellation signal is an `Option Nat`: `some n`
means every `ctx.Err()` consultation from the `n`-th one on observes
cancellation (this represents an arbitrary moment at which the external
context is cancelled); `none` is a never-cancelled context.  Storage
faults are injected by a `faults` oracle over the write-attempt counter:
a faulted write returns an error without modifying the transaction, as a
failed SQL statement does.  `BeginTx`, `ExecContext` and `Commit` all
consult the context, as `database/sql` does; `BeginTx` and `Commit` are
otherwise modelled as infallible.  A transaction is a copy of the
database: rollback discards it, commit installs it. -/

structure ScanSt where
  polls : Nat
  ticks : Nat
deriving DecidableEq

/-- Why a storage operation failed. -/
inductive WriteFailure where
  | canceledCtx
  | fault
  | constraint
deriving DecidableEq

/-- The error returned by `Scan`: the naked cancellation error from a
root/title boundary check, or a wrapped storage error. -/
inductive ScanErr where
  | canceled
  | storage (c : WriteFailure)
deriving DecidableEq

/-- One `ctx.Err()` consultation. -/
def ctxDone (ctx : Option Nat) (st : ScanSt) : Bool × ScanSt :=
  (match ctx with
   | none => false
   | some n => decide (n ≤ st.polls),
   { st with polls := st.polls + 1 })

/-- One storage write attempt: consult the context, then the fault oracle. -/
def execWrite (faults : Nat → Bool) (ctx : Option Nat) (st : ScanSt) :
    Except (ScanErr × ScanSt) ScanSt :=
  let r := ctxDone ctx st
  if r.1 then .error (.storage .canceledCtx, r.2)
  else
    let st2 := { r.2 with ticks := r.2.ticks + 1 }
    if faults r.2.ticks then .error (.storage .fault, st2) else .ok st2

/-- A collected page record (the source's `pageMeta`; `width`/`height`
are never set by the scanner). -/
structure PageMeta where
  id : String
  path : String
  index : Nat
  mime : String
  width : Option Int
  height : Option Int
  size : Int
  fileMTime : Int
deriving DecidableEq

/-- Collected chapter metadata (the source's `chapterMeta`). -/
structure ChapterMeta where
  path : String
  title : String
  number : Option ℚ
  pageCount : Nat
  mtime : Int
deriving DecidableEq

/-- The page record the walk callback builds for one image file (the
`page_index` is assigned later, after sorting; the callback stores the
zero value, as the Go struct literal leaves `index` unset). -/
def pageOf (f : FSEntry) : PageMeta :=
  { id := stableID "page" (compsPath f.comps), path := compsPath f.comps, index := 0,
    mime := mimeFromExt (extname (compsPath f.comps)), width := none, height := none,
    size := f.size, fileMTime := f.mtime }

/-- The body of the `WalkDir` callback over the visited files: every
regular file first consults the context (an observation of cancellation
aborts the walk with the context's error), then non-image files are
skipped silently and image files produce a page record. -/
def collectPagesAux (ctx : Option Nat) :
    List FSEntry → ScanSt → List PageMeta → Except ScanSt (List PageMeta × ScanSt)
  | [], st, acc => .ok (acc.reverse, st)
  | f :: rest, st, acc =>
    let r := ctxDone ctx st
    if r.1 then .error r.2
    else
      if isImageFile (compsPath f.comps) then
        collectPagesAux ctx rest r.2 (pageOf f :: acc)
      else collectPagesAux ctx rest r.2 acc

/-- Model of the source's `collectChapter`: walk the chapter directory,
collect image pages, sort them by natural order of their base names,
assign dense indices, and read the directory's own mtime.  An error (a
failed walk or a cancellation observed mid-walk) aborts only this
chapter's collection. -/
def collectChapter (ctx : Option Nat) (fs : FS) (chapterPath : String) (st : ScanSt) :
    Except ScanSt ((ChapterMeta × List PageMeta) × ScanSt) :=
  match walkFiles fs chapterPath with
  | none => .error st
  | some files =>
    match collectPagesAux ctx files st [] with
    | .error st1 => .error st1
    | .ok (pages, st1) =>
      let sorted := sortBy (fun a b => naturalLess (basename a.path) (basename b.path)) pages
      let indexed := sorted.enum.map fun ip => { ip.2 with index := ip.1 }
      match findEntry fs (pathComps chapterPath) with
      | none => .error st1
      | some e =>
        let name := basename chapterPath
        .ok ((⟨chapterPath, name, parseChapterNumber name, indexed.length, e.mtime⟩,
          indexed), st1)

/-- Model of `readChapterDirs`: list the title directory, keep directories,
sort them case-insensitively by name. -/
def readChapterDirsM (fs : FS) (mangaPath : String) : Option (List String) :=
  match readDirM fs mangaPath with
  | none => none
  | some entries =>
    let dirs := entries.filter fun e => e.isDir
    some ((sortBy (fun a b =>
      lexLtB ((entryName a).data.map lowerCh) ((entryName b).data.map lowerCh)) dirs).map
        entryName)

/-- The `upsertPages` loop: one statement per page, in page order; a
constraint violation or an injected fault aborts with a storage error. -/
def upsertPages (faults : Nat → Bool) (ctx : Option Nat) (chapterID : String) :
    List PageMeta → DB → ScanSt → Except (ScanErr × ScanSt) (DB × ScanSt)
  | [], tx, st => .ok (tx, st)
  | p :: rest, tx, st =>
    match execWrite faults ctx st with
    | .error e => .error e
    | .ok st1 =>
      let rows := pageWrite tx.page p.id chapterID p.index p.path p.mime p.size p.fileMTime
      if pageConflict rows p.path chapterID p.index then .error (.storage .constraint, st1)
      else upsertPages faults ctx chapterID rest { tx with page := rows } st1

/-- The chapter loop of `Scan` within one title's transaction.  A chapter
that fails collection or has no pages is skipped; upsert failures abort
the title. -/
def scanChapters (faults : Nat → Bool) (ctx : Option Nat) (fs : FS) (mangaID : String) :
    List String → DB → ScanSt → Nat → Nat → Int →
    Except (ScanErr × ScanSt) (DB × ScanSt × Nat × Nat × Int)
  | [], tx, st, chapterCount, mangaPageCount, mangaMTime =>
    .ok (tx, st, chapterCount, mangaPageCount, mangaMTime)
  | cp :: rest, tx, st, chapterCount, mangaPageCount, mangaMTime =>
    match collectChapter ctx fs cp st with
    | .error st1 =>
        scanChapters faults ctx fs mangaID rest tx st1 chapterCount mangaPageCount mangaMTime
    | .ok ((meta, pages), st1) =>
      if meta.pageCount = 0 then
        scanChapters faults ctx fs mangaID rest tx st1 chapterCount mangaPageCount mangaMTime
      else
        let chapterID := stableID "chapter" cp
        match execWrite faults ctx st1 with
        | .error e => .error e
        | .ok st2 =>
          let tx1 := { tx with chapter := (upsertChapterRows tx.chapter chapterID mangaID
            meta.title meta.number meta.path meta.pageCount meta.mtime) }
          match upsertPages faults ctx chapterID pages tx1 st2 with
          | .error e => .error e
          | .ok (tx2, st3) =>
            scanChapters faults ctx fs mangaID rest tx2 st3 (chapterCount + 1)
              (mangaPageCount + meta.pageCount)
              (if meta.mtime > mangaMTime then meta.mtime else mangaMTime)

/-- The per-title body of `Scan`: read and sort the chapter directories
(skipping the title when the listing fails or is empty), open a
transaction, upsert the title, process every chapter, then either roll
back (no qualifying chapter) or finalize the rollup and commit.  Any
storage failure rolls the transaction back (the caller keeps its
database) and aborts with the error. -/
def processTitle (faults : Nat → Bool) (ctx : Option Nat) (fs : FS)
    (mangaPath title : String) (db : DB) (st : ScanSt) :
    Except (ScanErr × ScanSt) (DB × ScanSt) :=
  match readChapterDirsM fs mangaPath with
  | none => .ok (db, st)
  | some chapterNames =>
    if chapterNames = [] then .ok (db, st)
    else
      let mangaID := stableID "manga" mangaPath
      let r := ctxDone ctx st
      if r.1 then .error (.storage .canceledCtx, r.2)
      else
        match execWrite faults ctx r.2 with
        | .error e => .error e
        | .ok st2 =>
          let tx := { db with manga := upsertMangaRows db.manga mangaID title mangaPath }
          match scanChapters faults ctx fs mangaID (chapterNames.map (joinPath mangaPath))
              tx st2 0 0 0 with
          | .error e => .error e
          | .ok (tx2, st3, chapterCount, pageCount, mtime) =>
            if chapterCount = 0 then .ok (db, st3)
            else
              match execWrite faults ctx st3 with
              | .error e => .error e
              | .ok st4 =>
                let tx3 := { tx2 with manga := (finalizeRows tx2.manga mangaID chapterCount
                  pageCount (if mtime = 0 then none else some mtime)) }
                let r2 := ctxDone ctx st4
                if r2.1 then .error (.storage .canceledCtx, r2.2)
                else .ok (tx3, r2.2)

/-- The title loop over one root's entries: non-directories are skipped,
the context is polled before each title, and a title failure aborts the
scan with the committed database so far. -/
def scanEntries (faults : Nat → Bool) (ctx : Option Nat) (fs : FS) (root : String) :
    List FSEntry → DB → ScanSt → DB × ScanSt × Option ScanErr
  | [], db, st => (db, st, none)
  | e :: rest, db, st =>
    if ¬ e.isDir then scanEntries faults ctx fs root rest db st
    else
      let r := ctxDone ctx st
      if r.1 then (db, r.2, some .canceled)
      else
        match processTitle faults ctx fs (joinPath root (entryName e)) (entryName e) db r.2 with
        | .error (err, st2) => (db, st2, some err)
        | .ok (db2, st2) => scanEntries faults ctx fs root rest db2 st2

/-- The root loop of `Scan`: the context is polled before each root, an
unreadable root is skipped, and a title failure aborts the whole run. -/
def scanRoots (faults : Nat → Bool) (ctx : Option Nat) (fs : FS) :
    List String → DB → ScanSt → DB × ScanSt × Option ScanErr
  | [], db, st => (db, st, none)
  | root :: rest, db, st =>
    let r := ctxDone ctx st
    if r.1 then (db, r.2, some .canceled)
    else
      let rootC := cleanPath root
      match readDirM fs rootC with
      | none => scanRoots faults ctx fs rest db r.2
      | some entries =>
        match scanEntries faults ctx fs rootC entries db r.2 with
        | (db2, st2, some err) => (db2, st2, some err)
        | (db2, st2, none) => scanRoots faults ctx fs rest db2 st2

/-- Model of the source's `Scan` (the nil-db guard is outside the model:
the database collaborator is always present here; a configuration with no
library roots returns successfully at once). -/
def Scan (faults : Nat → Bool) (ctx : Option Nat) (fs : FS) (roots : List String)
    (db : DB) : DB × ScanSt × Option ScanErr :=
  if roots = [] then (db, ⟨0, 0⟩, none)
  else scanRoots faults ctx fs roots db ⟨0, 0⟩

/-- The never-failing fault oracle. -/
def noFaults : Nat → Bool := fun _ => false

/-! ## The flat storage-operation view of a scan

With no faults and no cancellation, a scan's effect on the database is a
sequence of storage statements, each determined by the filesystem alone
(the scanner never reads the database).  The definitions below compute
that sequence and its sequential execution; theorems later relate it to
`Scan` and prove the re-scan idempotence claim over it. -/

/-- One storage statement of a scan. -/
inductive Op where
  | mangaUp (id title path : String)
  | chapterUp (id mangaId title : String) (number : Option ℚ) (path : String)
      (pageCount : Nat) (mtime : Int)
  | pageUp (id cid : String) (idx : Nat) (path mime : String) (size mtime : Int)
  | finalize (mangaId : String) (chapterCount pageCount : Nat) (lastScan : Option Int)
deriving DecidableEq

/-- The path a `pageUp` statement writes, if any. -/
def Op.pagePathOf : Op → Option String
  | .pageUp _ _ _ path _ _ _ => some path
  | _ => none

/-- The path a `chapterUp` statement writes, if any. -/
def Op.chapterPathOf : Op → Option String
  | .chapterUp _ _ _ _ path _ _ => some path
  | _ => none

/-- The path a `mangaUp` statement writes, if any. -/
def Op.mangaPathOf : Op → Option String
  | .mangaUp _ _ path => some path
  | _ => none

/-- The id a `finalize` statement targets, if any. -/
def Op.finIdOf : Op → Option String
  | .finalize id _ _ _ => some id
  | _ => none

/-- The id a `mangaUp` statement writes, if any. -/
def Op.mangaIdOf : Op → Option String
  | .mangaUp id _ _ => some id
  | _ => none

/-- Execute one statement (the page statement can fail its uniqueness
check, as in `upsertPages`). -/
def applyOp (o : Op) (db : DB) : Except Unit DB :=
  match o with
  | .mangaUp id title path => .ok { db with manga := upsertMangaRows db.manga id title path }
  | .chapterUp id mangaId title number path pageCount mtime =>
      .ok { db with chapter := (upsertChapterRows db.chapter id mangaId title number path
        pageCount mtime) }
  | .pageUp id cid idx path mime size mtime =>
      let rows := pageWrite db.page id cid idx path mime size mtime
      if pageConflict rows path cid idx then .error () else .ok { db with page := rows }
  | .finalize mangaId chapterCount pageCount lastScan =>
      .ok { db with manga := finalizeRows db.manga mangaId chapterCount pageCount lastScan }

/-- Execute a statement sequence, stopping at the first failure. -/
def runFlat : List Op → DB → Except Unit DB
  | [], db => .ok db
  | o :: rest, db =>
    match applyOp o db with
    | .error e => .error e
    | .ok db2 => runFlat rest db2

/-- The pure result of collecting one chapter (what `collectChapter`
computes when it is not cancelled; `none` for a failed walk or stat). -/
def collectChapterP (fs : FS) (cp : String) : Option (ChapterMeta × List PageMeta) :=
  match walkFiles fs cp with
  | none => none
  | some files =>
    match findEntry fs (pathComps cp) with
    | none => none
    | some e =>
      let pages := (files.filter fun f => isImageFile (compsPath f.comps)).map pageOf
      let sorted := sortBy (fun a b => naturalLess (basename a.path) (basename b.path)) pages
      let indexed := sorted.enum.map fun ip => { ip.2 with index := ip.1 }
      some (⟨cp, basename cp, parseChapterNumber (basename cp), indexed.length, e.mtime⟩,
        indexed)

/-- The page statements of one chapter, in page order. -/
def pageOpsOf (cid : String) (pages : List PageMeta) : List Op :=
  pages.map fun p => Op.pageUp p.id cid p.index p.path p.mime p.size p.fileMTime

/-- The statements one chapter contributes (none when it fails collection
or has no pages). -/
def chapterOpsOf (fs : FS) (mangaID cp : String) : List Op :=
  match collectChapterP fs cp with
  | none => []
  | some (meta, pages) =>
    if meta.pageCount = 0 then [] else
      Op.chapterUp (stableID "chapter" cp) mangaID meta.title meta.number meta.path
          meta.pageCount meta.mtime ::
        pageOpsOf (stableID "chapter" cp) pages

/-- The rollup accumulator over a title's chapters, continuing from given
counts (mirrors the chapter loop's `chapterCount`/`mangaPageCount`/
`mangaMTime` updates). -/
def titleAggFrom (fs : FS) : List String → Nat → Nat → Int → Nat × Nat × Int
  | [], c, p, m => (c, p, m)
  | cp :: rest, c, p, m =>
    match collectChapterP fs cp with
    | none => titleAggFrom fs rest c p m
    | some (meta, _) =>
      if meta.pageCount = 0 then titleAggFrom fs rest c p m
      else titleAggFrom fs rest (c + 1) (p + meta.pageCount)
        (if meta.mtime > m then meta.mtime else m)

/-- The statements one title contributes: nothing for a skipped or
rolled-back title, otherwise the title upsert, all chapter statements,
and the final rollup. -/
def titleOpsOf (fs : FS) (mangaPath title : String) : List Op :=
  match readChapterDirsM fs mangaPath with
  | none => []
  | some names =>
    if names = [] then [] else
      let mangaID := stableID "manga" mangaPath
      let cps := names.map (joinPath mangaPath)
      let agg := titleAggFrom fs cps 0 0 0
      if agg.1 = 0 then [] else
        Op.mangaUp mangaID title mangaPath ::
          (cps.flatMap (chapterOpsOf fs mangaID) ++
            [Op.finalize mangaID agg.1 agg.2.1 (if agg.2.2 = 0 then none else some agg.2.2)])

/-- The statements one root's directory entries contribute. -/
def entriesOpsOf (fs : FS) (root : String) (entries : List FSEntry) : List Op :=
  entries.flatMap fun e =>
    if e.isDir then titleOpsOf fs (joinPath root (entryName e)) (entryName e) else []

/-- The statement sequence of a whole scan. -/
def opsOf (fs : FS) (roots : List String) : List Op :=
  roots.flatMap fun root =>
    match readDirM fs (cleanPath root) with
    | none => []
    | some entries => entriesOpsOf fs (cleanPath root) entries

/-- Two page statements agree: equal `(chapter_id, page_index)` keys force
equal paths. -/
def pageCompat : Op → Op → Bool
  | .pageUp _ c1 i1 p1 _ _ _, .pageUp _ c2 i2 p2 _ _ _ =>
      decide (¬ (c1 = c2 ∧ i1 = i2) ∨ p1 = p2)
  | _, _ => true

/-- A rollup is never followed by a title insert of the same id. -/
def finMangaOk : Op → Op → Bool
  | .finalize x _ _ _, .mangaUp id _ _ => decide (¬ id = x)
  | _, _ => true

/-- Well-formedness of a scan's statement sequence: each path (and rollup
id) is written by at most one statement of its kind, page statements with
equal keys agree on the path, and no rollup precedes a title statement of
its id.  These hold for any scan of library roots that do not overlap,
provided `stableID` is collision-free on the scanned paths — the spec's
own standing assumption; the conditions are decidable and checked
concretely in the witness. -/
def OpsGood (ops : List Op) : Prop :=
  (ops.filterMap Op.pagePathOf).Nodup ∧
  (ops.filterMap Op.chapterPathOf).Nodup ∧
  (ops.filterMap Op.mangaPathOf).Nodup ∧
  (ops.filterMap Op.finIdOf).Nodup ∧
  (∀ o1 ∈ ops, ∀ o2 ∈ ops, pageCompat o1 o2 = true) ∧
  List.Pairwise (fun o1 o2 => finMangaOk o1 o2 = true) ops

instance (ops : List Op) : Decidable (OpsGood ops) := by
  unfold OpsGood
  infer_instance


/-- The field values the page update clause leaves behind. -/
def pageRowMatches (cid : String) (idx : Nat) (mime : String) (size mtime : Int)
    (r : PageRow) : Prop :=
  r.chapter_id = cid ∧ r.page_index = idx ∧ r.mime = mime ∧ r.width = none ∧
    r.height = none ∧ r.size_bytes = size ∧ r.file_mtime = some mtime

/-- The field values the chapter update clause leaves behind. -/
def chapterRowMatches (title : String) (number : Option ℚ) (pageCount : Nat) (mtime : Int)
    (r : ChapterRow) : Prop :=
  r.title = title ∧ r.number = number ∧ r.page_count = pageCount ∧ r.file_mtime = some mtime

/-- The field values the manga update clause leaves behind. -/
def mangaRowMatches (title : String) (r : MangaRow) : Prop :=
  r.title = title ∧ r.title_sort = lowerStr title

/-- The field values the rollup update leaves behind. -/
def finRowMatches (chapterCount pageCount : Nat) (lastScan : Option Int) (r : MangaRow) :
    Prop :=
  r.chapter_count = chapterCount ∧ r.page_count = pageCount ∧ r.last_scan_at = lastScan

/-! ## Theorems -/

/-! ### Facts about `stableID` (claim C2) -/

theorem length_toBytesBE (k n : Nat) : (toBytesBE k n).length = k := by
  simp [toBytesBE]

theorem length_sha1 (msg : List Nat) : (sha1 msg).length = 20 := by
  simp [sha1, length_toBytesBE]

theorem length_hexBytes (bs : List Nat) : (hexBytes bs).length = 2 * bs.length := by
  induction bs with
  | nil => rfl
  | cons b rest ih => simp [hexBytes, ih]; omega

theorem length_stableID (tag p : String) :
    (stableID tag p).length = tag.length + 41 := by
  have h1 : (String.mk (hexBytes (sha1 (strBytes (cleanPath p))))).length = 40 := by
    show (hexBytes (sha1 (strBytes (cleanPath p)))).length = 40
    rw [length_hexBytes, length_sha1]
  simp only [stableID, String.length_append, h1]
  rfl

/-- C2: `stableID` is a pure deterministic function (any two calls with the
same `(tag, path)` pair return the same string — immediate because the model
is a function); the returned string is the tag, an underscore, and the
fixed-length (40 hex characters of a 20-byte SHA-1) hex encoding of the hash
of the cleaned path; and for two distinct kind tags no pair of paths yields
the same ID, because the hex part has fixed length. -/
theorem stableID_spec :
    (∀ tag p, stableID tag p =
        tag ++ "_" ++ String.mk (hexBytes (sha1 (strBytes (cleanPath p))))) ∧
    (∀ msg, (sha1 msg).length = 20) ∧
    (∀ tag p, (stableID tag p).length = tag.length + 41) ∧
    (∀ t1 t2 p1 p2, t1 ≠ t2 → stableID t1 p1 ≠ stableID t2 p2) := by
  refine ⟨fun tag p => rfl, length_sha1, length_stableID, ?_⟩
  intro t1 t2 p1 p2 hne heq
  apply hne
  have hlen : t1.length = t2.length := by
    have := congrArg String.length heq
    rw [length_stableID, length_stableID] at this
    omega
  obtain ⟨d1⟩ := t1
  obtain ⟨d2⟩ := t2
  have hdata : d1 ++ ('_' :: hexBytes (sha1 (strBytes (cleanPath p1)))) =
      d2 ++ ('_' :: hexBytes (sha1 (strBytes (cleanPath p2)))) := by
    have h0 : (d1 ++ ['_']) ++ hexBytes (sha1 (strBytes (cleanPath p1))) =
        (d2 ++ ['_']) ++ hexBytes (sha1 (strBytes (cleanPath p2))) :=
      congrArg String.data heq
    simpa only [List.append_assoc, List.singleton_append] using h0
  have hl : d1.length = d2.length := hlen
  exact congrArg String.mk (List.append_inj hdata hl).1

/-- Witness for C2's hypothesis-bearing conjunct: the manga and chapter IDs
of the same path differ. -/
theorem stableID_spec_witness :
    stableID "manga" "/lib/Title" ≠ stableID "chapter" "/lib/Title" :=
  stableID_spec.2.2.2 "manga" "chapter" "/lib/Title" "/lib/Title" (by decide)

/-! ### Character-level facts -/

theorem char_lt_iff {a b : Char} : a < b ↔ a.toNat < b.toNat := by
  simp [Char.lt_iff_val_lt_val, UInt32.lt_def, BitVec.lt_def, Char.toNat, UInt32.toNat]

theorem char_le_iff {a b : Char} : a ≤ b ↔ a.toNat ≤ b.toNat := by
  simp [Char.le_def, UInt32.le_def, BitVec.le_def, Char.toNat, UInt32.toNat]

theorem char_toNat_inj {a b : Char} (h : a.toNat = b.toNat) : a = b :=
  Char.eq_of_val_eq (UInt32.eq_of_toBitVec_eq (by
    have : a.val.toNat = b.val.toNat := h
    exact BitVec.eq_of_toNat_eq this))

theorem toNat_ofNat_valid {n : Nat} (h : n < 55296) : (Char.ofNat n).toNat = n := by
  have hv : n.isValidChar := Or.inl h
  simp [Char.ofNat, dif_pos hv, Char.ofNatAux, Char.toNat, UInt32.toNat]

theorem isDigitCh_iff {c : Char} : isDigitCh c = true ↔ 48 ≤ c.toNat ∧ c.toNat ≤ 57 := by
  simp [isDigitCh, char_le_iff]

theorem lowerCh_digit {c : Char} (h : isDigitCh c = true) : lowerCh c = c := by
  have := isDigitCh_iff.mp h
  rw [lowerCh, if_neg]
  intro ⟨h1, _⟩
  have : 65 ≤ c.toNat := by simpa [char_le_iff] using h1
  omega

theorem isDigitCh_lowerCh (c : Char) : isDigitCh (lowerCh c) = isDigitCh c := by
  by_cases h : 'A' ≤ c ∧ c ≤ 'Z'
  · have h1 : 65 ≤ c.toNat := by simpa [char_le_iff] using h.1
    have h2 : c.toNat ≤ 90 := by simpa [char_le_iff] using h.2
    have hv : (Char.ofNat (c.toNat + 32)).toNat = c.toNat + 32 :=
      toNat_ofNat_valid (by omega)
    rw [lowerCh, if_pos h]
    have hl : isDigitCh (Char.ofNat (c.toNat + 32)) = false := by
      rw [Bool.eq_false_iff]
      intro hd
      have := isDigitCh_iff.mp hd
      omega
    have hr : isDigitCh c = false := by
      rw [Bool.eq_false_iff]
      intro hd
      have := isDigitCh_iff.mp hd
      omega
    rw [hl, hr]
  · rw [lowerCh, if_neg h]

/-! ### `lexLtB` is a strict weak (indeed linear) order -/

theorem lexLtB_irrefl (l : List Char) : lexLtB l l = false := by
  induction l with
  | nil => rfl
  | cons a as ih => simp [lexLtB, lt_irrefl, ih]

theorem lexLtB_cons_iff {a b : Char} {as bs : List Char} :
    lexLtB (a :: as) (b :: bs) = true ↔ a < b ∨ (a = b ∧ lexLtB as bs = true) := by
  rcases lt_trichotomy a b with h | h | h
  · simp [lexLtB, if_pos h, h]
  · subst h
    simp [lexLtB, lt_irrefl]
  · simp only [lexLtB, if_neg (lt_asymm h), if_pos h]
    constructor
    · intro hh
      exact absurd hh (by simp)
    · rintro (hh | ⟨rfl, _⟩)
      · exact absurd hh (lt_asymm h)
      · exact absurd h (lt_irrefl _)

theorem lexLtB_trans {x y z : List Char} (h1 : lexLtB x y = true)
    (h2 : lexLtB y z = true) : lexLtB x z = true := by
  induction x generalizing y z with
  | nil =>
    cases z with
    | nil =>
      cases y with
      | nil => exact h1
      | cons b bs => simp [lexLtB] at h2
    | cons c cs => rfl
  | cons a as ih =>
    cases y with
    | nil => simp [lexLtB] at h1
    | cons b bs =>
      cases z with
      | nil => simp [lexLtB] at h2
      | cons c cs =>
        rcases lexLtB_cons_iff.mp h1 with hab | ⟨rfl, h1'⟩
        · rcases lexLtB_cons_iff.mp h2 with hbc | ⟨rfl, h2'⟩
          · exact lexLtB_cons_iff.mpr (Or.inl (lt_trans hab hbc))
          · exact lexLtB_cons_iff.mpr (Or.inl hab)
        · rcases lexLtB_cons_iff.mp h2 with hbc | ⟨rfl, h2'⟩
          · exact lexLtB_cons_iff.mpr (Or.inl hbc)
          · exact lexLtB_cons_iff.mpr (Or.inr ⟨rfl, ih h1' h2'⟩)

theorem lexLtB_antisymm_eq {x y : List Char} (h1 : lexLtB x y = false)
    (h2 : lexLtB y x = false) : x = y := by
  induction x generalizing y with
  | nil =>
    cases y with
    | nil => rfl
    | cons b bs => simp [lexLtB] at h1
  | cons a as ih =>
    cases y with
    | nil => simp [lexLtB] at h2
    | cons b bs =>
      simp only [lexLtB] at h1 h2
      by_cases hab : a < b
      · simp [if_pos hab] at h1
      · by_cases hba : b < a
        · simp [if_pos hba] at h2
        · have : a = b := le_antisymm (not_lt.mp hba) (not_lt.mp hab)
          subst this
          simp only [if_neg hab] at h1 h2
          rw [ih h1 h2]

/-! ### Decimal digit strings: values, canonical fixed-width form -/

theorem toNat_digitChar {n : Nat} (h : n < 10) : (digitChar n).toNat = 48 + n :=
  toNat_ofNat_valid (by omega)

theorem isDigitCh_digitChar {n : Nat} (h : n < 10) : isDigitCh (digitChar n) = true := by
  rw [isDigitCh_iff, toNat_digitChar h]
  omega

theorem digitChar_lt {a b : Nat} (ha : a < 10) (hb : b < 10) (h : a < b) :
    digitChar a < digitChar b := by
  rw [char_lt_iff, toNat_digitChar ha, toNat_digitChar hb]
  omega

theorem digitsToNat_general (l : List Char) (a : Nat) :
    l.foldl (fun a c => 10 * a + (c.toNat - 48)) a = a * 10 ^ l.length + digitsToNat l := by
  induction l generalizing a with
  | nil => simp [digitsToNat]
  | cons c rest ih =>
    simp only [digitsToNat, List.foldl_cons, List.length_cons]
    rw [ih (10 * a + (c.toNat - 48)), ih (10 * 0 + (c.toNat - 48))]
    ring

theorem digitsToNat_cons (c : Char) (l : List Char) :
    digitsToNat (c :: l) = (c.toNat - 48) * 10 ^ l.length + digitsToNat l := by
  show (c :: l).foldl (fun a c => 10 * a + (c.toNat - 48)) 0 = _
  rw [List.foldl_cons, digitsToNat_general]
  ring_nf

theorem digitsToNat_snoc (l : List Char) (c : Char) :
    digitsToNat (l ++ [c]) = 10 * digitsToNat l + (c.toNat - 48) := by
  show (l ++ [c]).foldl _ 0 = _
  rw [List.foldl_append]
  rfl

theorem digitsToNat_lt (l : List Char) (h : ∀ c ∈ l, isDigitCh c = true) :
    digitsToNat l < 10 ^ l.length := by
  induction l with
  | nil => simp [digitsToNat]
  | cons c rest ih =>
    rw [digitsToNat_cons, List.length_cons]
    have hc := isDigitCh_iff.mp (h c (List.mem_cons_self c rest))
    have hd : c.toNat - 48 ≤ 9 := by omega
    have hr := ih fun x hx => h x (List.mem_cons_of_mem c hx)
    calc (c.toNat - 48) * 10 ^ rest.length + digitsToNat rest
        < (c.toNat - 48) * 10 ^ rest.length + 10 ^ rest.length := by omega
      _ = (c.toNat - 48 + 1) * 10 ^ rest.length := by ring
      _ ≤ 10 * 10 ^ rest.length := Nat.mul_le_mul_right _ (by omega)
      _ = 10 ^ (rest.length + 1) := by ring

theorem digitsToNat_replicate_zero (j : Nat) (l : List Char) :
    digitsToNat (List.replicate j '0' ++ l) = digitsToNat l := by
  induction j with
  | zero => rfl
  | succ j ih =>
    rw [List.replicate_succ, List.cons_append, digitsToNat_cons, ih]
    have h0 : ('0'.toNat - 48) = 0 := by decide
    rw [h0, Nat.zero_mul, Nat.zero_add]

theorem length_fixDigits (k n : Nat) : (fixDigits k n).length = k := by
  induction k generalizing n with
  | zero => rfl
  | succ k ih => simp [fixDigits, ih]

theorem digitsToNat_fixDigits {k n : Nat} (h : n < 10 ^ k) :
    digitsToNat (fixDigits k n) = n := by
  induction k generalizing n with
  | zero =>
    interval_cases n
    rfl
  | succ k ih =>
    have hq : n / 10 ^ k < 10 := by
      have : n < 10 ^ k * 10 := by
        calc n < 10 ^ (k + 1) := h
          _ = 10 ^ k * 10 := by ring
      exact Nat.div_lt_of_lt_mul this
    rw [fixDigits, digitsToNat_cons, length_fixDigits,
      ih (Nat.mod_lt _ (Nat.pos_pow_of_pos k (by omega))), toNat_digitChar hq]
    rw [Nat.add_sub_cancel_left, Nat.mul_comm]
    exact Nat.div_add_mod n (10 ^ k)

theorem fixDigits_canonical (l : List Char) (h : ∀ c ∈ l, isDigitCh c = true) :
    fixDigits l.length (digitsToNat l) = l := by
  induction l with
  | nil => rfl
  | cons c rest ih =>
    have hc := isDigitCh_iff.mp (h c (List.mem_cons_self c rest))
    have hr : ∀ x ∈ rest, isDigitCh x = true := fun x hx => h x (List.mem_cons_of_mem c hx)
    have hv : digitsToNat rest < 10 ^ rest.length := digitsToNat_lt rest hr
    rw [List.length_cons, fixDigits, digitsToNat_cons]
    have hdiv : ((c.toNat - 48) * 10 ^ rest.length + digitsToNat rest) / 10 ^ rest.length
        = c.toNat - 48 := by
      rw [Nat.mul_comm, Nat.mul_add_div (Nat.pos_pow_of_pos _ (by omega)),
        Nat.div_eq_of_lt hv, Nat.add_zero]
    have hmod : ((c.toNat - 48) * 10 ^ rest.length + digitsToNat rest) % 10 ^ rest.length
        = digitsToNat rest := by
      rw [Nat.mul_comm, Nat.mul_add_mod, Nat.mod_eq_of_lt hv]
    rw [hdiv, hmod, ih hr]
    have : digitChar (c.toNat - 48) = c := by
      have h48 : 48 + (c.toNat - 48) = c.toNat := by omega
      rw [digitChar, h48, Char.ofNat_toNat]
    rw [this]

theorem fixDigits_lt {k m n : Nat} (hmn : m < n) (hn : n < 10 ^ k) :
    lexLtB (fixDigits k m) (fixDigits k n) = true := by
  induction k generalizing m n with
  | zero =>
    simp only [pow_zero] at hn
    omega
  | succ k ih =>
    have hB : 0 < 10 ^ k := Nat.pos_pow_of_pos _ (by omega)
    have hqn : n / 10 ^ k < 10 := by
      refine Nat.div_lt_of_lt_mul ?_
      calc n < 10 ^ (k + 1) := hn
        _ = 10 ^ k * 10 := by ring
    have hqle : m / 10 ^ k ≤ n / 10 ^ k := Nat.div_le_div_right (le_of_lt hmn)
    have hqm : m / 10 ^ k < 10 := lt_of_le_of_lt hqle hqn
    rcases Nat.lt_trichotomy (m / 10 ^ k) (n / 10 ^ k) with hq | hq | hq
    · exact lexLtB_cons_iff.mpr (Or.inl (digitChar_lt hqm hqn hq))
    · refine lexLtB_cons_iff.mpr (Or.inr ⟨by rw [hq], ?_⟩)
      have hm' := Nat.div_add_mod m (10 ^ k)
      have hn' := Nat.div_add_mod n (10 ^ k)
      rw [← hq] at hn'
      have hmod : m % 10 ^ k < n % 10 ^ k := by omega
      exact ih hmod (Nat.mod_lt _ hB)
    · omega

theorem decDigitsAux_spec : ∀ fuel n, n < fuel →
    (∀ c ∈ decDigitsAux fuel n, isDigitCh c = true) ∧
    digitsToNat (decDigitsAux fuel n) = n ∧ decDigitsAux fuel n ≠ [] := by
  intro fuel
  induction fuel with
  | zero => omega
  | succ fuel ih =>
    intro n hn
    by_cases h10 : n < 10
    · refine ⟨?_, ?_, by simp [decDigitsAux, h10]⟩
      · intro c hc
        simp only [decDigitsAux, if_pos h10, List.mem_singleton] at hc
        subst hc
        exact isDigitCh_digitChar h10
      · simp only [decDigitsAux, if_pos h10]
        rw [digitsToNat_cons, toNat_digitChar h10]
        simp [digitsToNat]
    · have hrec : n / 10 < fuel := by
        have := Nat.div_lt_self (by omega : 0 < n) (by omega : 1 < 10)
        omega
      obtain ⟨ihd, ihv, ihne⟩ := ih (n / 10) hrec
      simp only [decDigitsAux, if_neg h10]
      refine ⟨?_, ?_, by simp⟩
      · intro c hc
        rcases List.mem_append.mp hc with hc | hc
        · exact ihd c hc
        · rw [List.mem_singleton] at hc
          subst hc
          exact isDigitCh_digitChar (Nat.mod_lt _ (by omega))
      · rw [digitsToNat_snoc, ihv, toNat_digitChar (Nat.mod_lt _ (by omega))]
        have := Nat.div_add_mod n 10
        omega

theorem decDigitsAux_length_le : ∀ fuel n k, n < fuel → n < 10 ^ k → 1 ≤ k →
    (decDigitsAux fuel n).length ≤ k := by
  intro fuel
  induction fuel with
  | zero => omega
  | succ fuel ih =>
    intro n k hn hk hk1
    by_cases h10 : n < 10
    · simpa [decDigitsAux, h10] using hk1
    · have hk2 : 2 ≤ k := by
        by_contra hlt
        have : k = 1 := by omega
        subst this
        simp only [pow_one] at hk
        omega
      have hrec : n / 10 < fuel := by
        have := Nat.div_lt_self (by omega : 0 < n) (by omega : 1 < 10)
        omega
      have hdiv : n / 10 < 10 ^ (k - 1) := by
        refine Nat.div_lt_of_lt_mul ?_
        have hpow : 10 ^ k = 10 * 10 ^ (k - 1) := by
          have h1 : 10 ^ (k - 1 + 1) = 10 * 10 ^ (k - 1) := pow_succ' 10 (k - 1)
          rwa [Nat.sub_add_cancel hk1] at h1
        rw [← hpow]
        exact hk
      have := ih (n / 10) (k - 1) hrec hdiv (by omega)
      simp only [decDigitsAux, if_neg h10, List.length_append, List.length_singleton]
      omega

theorem pad8_eq_fixDigits {n : Nat} (h : n < 100000000) : pad8 n = fixDigits 8 n := by
  obtain ⟨hdig, hval, _⟩ := decDigitsAux_spec (n + 1) n (Nat.lt_succ_self n)
  have h8 : n < 10 ^ 8 := by norm_num at h ⊢; omega
  have hlen : (decDigits n).length ≤ 8 :=
    decDigitsAux_length_le (n + 1) n 8 (Nat.lt_succ_self n) h8 (by omega)
  have hall : ∀ c ∈ pad8 n, isDigitCh c = true := by
    intro c hc
    rcases List.mem_append.mp hc with hc | hc
    · rw [List.eq_of_mem_replicate hc]
      decide
    · exact hdig c hc
  have hvalue : digitsToNat (pad8 n) = n := by
    rw [pad8, digitsToNat_replicate_zero]
    exact hval
  have hlength : (pad8 n).length = 8 := by
    simp only [pad8, List.length_append, List.length_replicate]
    omega
  calc pad8 n = fixDigits (pad8 n).length (digitsToNat (pad8 n)) :=
        (fixDigits_canonical _ hall).symm
    _ = fixDigits 8 n := by rw [hlength, hvalue]

theorem lexLtB_append_same (l x y : List Char) :
    lexLtB (l ++ x) (l ++ y) = lexLtB x y := by
  induction l with
  | nil => rfl
  | cons c cs ih => simp [lexLtB, lt_irrefl, ih]

theorem lexLtB_append_of_eq_length {x y : List Char} (r s : List Char)
    (hl : x.length = y.length) (h : lexLtB x y = true) :
    lexLtB (x ++ r) (y ++ s) = true := by
  induction x generalizing y with
  | nil =>
    cases y with
    | nil => simp [lexLtB] at h
    | cons b bs => simp at hl
  | cons a as ih =>
    cases y with
    | nil => simp at hl
    | cons b bs =>
      rcases lexLtB_cons_iff.mp h with hab | ⟨rfl, h'⟩
      · exact lexLtB_cons_iff.mpr (Or.inl hab)
      · exact lexLtB_cons_iff.mpr (Or.inr ⟨rfl, ih (by simpa using hl) h'⟩)

/-! ### Structure of `naturalKey` around a digit run -/

theorem flushDigits_small {d : List Char} (hne : d ≠ [])
    (h : digitsToNat d < 100000000) : flushDigits d = pad8 (digitsToNat d) := by
  rw [flushDigits, if_neg hne, if_pos (by omega)]

theorem map_lowerCh_digits {d : List Char} (hd : ∀ c ∈ d, isDigitCh c = true) :
    d.map lowerCh = d := by
  induction d with
  | nil => rfl
  | cons c cs ih =>
    rw [List.map_cons, lowerCh_digit (hd c (List.mem_cons_self c cs)),
      ih fun x hx => hd x (List.mem_cons_of_mem c hx)]

theorem optAllNot {o : Option Char} (h : o.all (fun c => ! isDigitCh c) = true) :
    ∀ c, o = some c → isDigitCh c = false := by
  intro c hc
  subst hc
  simpa [Option.all] using h

theorem naturalKeyAux_nil_nil : naturalKeyAux [] [] = [] := rfl

theorem naturalKeyAux_cons_true {c : Char} (rest seg : List Char)
    (h : isDigitCh c = true) :
    naturalKeyAux (c :: rest) seg = naturalKeyAux rest (seg ++ [c]) := by
  show (if isDigitCh c = true then naturalKeyAux rest (seg ++ [c])
    else flushDigits seg ++ c :: naturalKeyAux rest []) = _
  rw [h, if_pos rfl]

theorem naturalKeyAux_cons_false {c : Char} (rest seg : List Char)
    (h : isDigitCh c = false) :
    naturalKeyAux (c :: rest) seg = flushDigits seg ++ c :: naturalKeyAux rest [] := by
  show (if isDigitCh c = true then naturalKeyAux rest (seg ++ [c])
    else flushDigits seg ++ c :: naturalKeyAux rest []) = _
  rw [h, if_neg (by simp)]

theorem naturalKeyAux_append (xs ys seg : List Char) (hne : xs ≠ [])
    (hend : ∀ c, xs.getLast? = some c → isDigitCh c = false) :
    naturalKeyAux (xs ++ ys) seg = naturalKeyAux xs seg ++ naturalKeyAux ys [] := by
  induction xs generalizing seg with
  | nil => exact absurd rfl hne
  | cons c cs ih =>
    cases cs with
    | nil =>
      have hc : isDigitCh c = false := hend c rfl
      rw [List.cons_append, List.nil_append, naturalKeyAux_cons_false ys seg hc,
        naturalKeyAux_cons_false [] seg hc]
      simp [naturalKeyAux_nil_nil]
    | cons d ds =>
      have hend' : ∀ x, (d :: ds).getLast? = some x → isDigitCh x = false := by
        intro x hx
        exact hend x (by rw [List.getLast?_cons_cons]; exact hx)
      have ihx := fun sg => ih sg (by simp) hend'
      by_cases hc : isDigitCh c = true
      · rw [List.cons_append, naturalKeyAux_cons_true ((d :: ds) ++ ys) seg hc,
          naturalKeyAux_cons_true (d :: ds) seg hc]
        exact ihx (seg ++ [c])
      · rw [Bool.not_eq_true] at hc
        rw [List.cons_append, naturalKeyAux_cons_false ((d :: ds) ++ ys) seg hc,
          naturalKeyAux_cons_false (d :: ds) seg hc, ihx []]
        simp

theorem naturalKeyAux_digits (d s seg : List Char)
    (hd : ∀ c ∈ d, isDigitCh c = true)
    (hs : ∀ c, s.head? = some c → isDigitCh c = false) :
    naturalKeyAux (d ++ s) seg = flushDigits (seg ++ d) ++ naturalKeyAux s [] := by
  induction d generalizing seg with
  | nil =>
    cases s with
    | nil =>
      show flushDigits seg = flushDigits (seg ++ []) ++ []
      simp
    | cons c cs =>
      have hc : isDigitCh c = false := hs c rfl
      rw [List.nil_append, naturalKeyAux_cons_false cs seg hc,
        naturalKeyAux_cons_false cs [] hc]
      simp [flushDigits]
  | cons x d' ih =>
    have hx : isDigitCh x = true := hd x (List.mem_cons_self x d')
    rw [List.cons_append, naturalKeyAux_cons_true (d' ++ s) seg hx,
      ih (seg ++ [x]) fun c hc => hd c (List.mem_cons_of_mem x hc)]
    simp

theorem naturalKey_decomp (p s : String) (d : List Char)
    (hd : ∀ c ∈ d, isDigitCh c = true)
    (hp : p.data.getLast?.all (fun c => ! isDigitCh c) = true)
    (hs : s.data.head?.all (fun c => ! isDigitCh c) = true) :
    naturalKey (p ++ String.mk d ++ s) =
      naturalKeyAux (p.data.map lowerCh) [] ++ flushDigits d ++
        naturalKeyAux (s.data.map lowerCh) [] := by
  have hdata : (p ++ String.mk d ++ s).data = p.data ++ d ++ s.data := by
    rw [String.data_append, String.data_append]
  have hmap : (p.data ++ d ++ s.data).map lowerCh =
      p.data.map lowerCh ++ d ++ s.data.map lowerCh := by
    rw [List.map_append, List.map_append, map_lowerCh_digits hd]
  have hsl : ∀ c, (s.data.map lowerCh).head? = some c → isDigitCh c = false := by
    intro c hc
    rw [List.head?_map] at hc
    cases h0 : s.data.head? with
    | none => rw [h0] at hc; exact absurd hc (by simp)
    | some c0 =>
      rw [h0] at hc
      have hcc : lowerCh c0 = c := by simpa using hc
      rw [← hcc, isDigitCh_lowerCh]
      exact optAllNot hs c0 h0
  rw [naturalKey, hdata, hmap]
  by_cases hpe : p.data = []
  · simp only [hpe, List.map_nil, List.nil_append]
    rw [naturalKeyAux_digits d (s.data.map lowerCh) [] hd hsl]
    simp [naturalKeyAux_nil_nil]
  · have hne : p.data.map lowerCh ≠ [] := by
      intro h0
      exact hpe (by simpa using h0)
    have hlast : ∀ c, (p.data.map lowerCh).getLast? = some c → isDigitCh c = false := by
      intro c hc
      rw [List.getLast?_map] at hc
      cases h0 : p.data.getLast? with
      | none => rw [h0] at hc; exact absurd hc (by simp)
      | some c0 =>
        rw [h0] at hc
        have hcc : lowerCh c0 = c := by simpa using hc
        rw [← hcc, isDigitCh_lowerCh]
        exact optAllNot hp c0 h0
    rw [List.append_assoc,
      naturalKeyAux_append (p.data.map lowerCh) (d ++ s.data.map lowerCh) [] hne hlast,
      naturalKeyAux_digits d (s.data.map lowerCh) [] hd hsl]
    simp

/-- C7: `naturalLess` compares names with embedded digit runs numerically:
for two names differing only in one embedded digit run (runs within the
eight-digit padding width, delimited by a non-digit or the ends of the
name), the name with the smaller numeric value compares less; the concrete
four-element example sorts as the spec requires; and the induced ordering
is a strict weak ordering — irreflexive, transitive, and such that
incomparable names have equal comparison keys (the key order is total). -/
theorem naturalLess_spec :
    (∀ (p s : String) (d1 d2 : List Char),
      d1 ≠ [] → d2 ≠ [] →
      (∀ c ∈ d1, isDigitCh c = true) → (∀ c ∈ d2, isDigitCh c = true) →
      digitsToNat d1 < digitsToNat d2 → digitsToNat d2 < 100000000 →
      p.data.getLast?.all (fun c => ! isDigitCh c) = true →
      s.data.head?.all (fun c => ! isDigitCh c) = true →
      naturalLess (p ++ String.mk d1 ++ s) (p ++ String.mk d2 ++ s) = true) ∧
    sortBy naturalLess ["page1.jpg", "page2.jpg", "page10.jpg", "page9.jpg"] =
      ["page1.jpg", "page2.jpg", "page9.jpg", "page10.jpg"] ∧
    (∀ a, naturalLess a a = false) ∧
    (∀ a b c, naturalLess a b = true → naturalLess b c = true →
      naturalLess a c = true) ∧
    (∀ a b, naturalLess a b = false → naturalLess b a = false →
      naturalKey a = naturalKey b) := by
  refine ⟨?_, by decide, fun a => lexLtB_irrefl _,
    fun a b c h1 h2 => lexLtB_trans h1 h2,
    fun a b h1 h2 => lexLtB_antisymm_eq h1 h2⟩
  intro p s d1 d2 h1ne h2ne h1d h2d hlt hbound hp hs
  have hb1 : digitsToNat d1 < 100000000 := lt_trans hlt hbound
  rw [naturalLess, naturalKey_decomp p s d1 h1d hp hs,
    naturalKey_decomp p s d2 h2d hp hs,
    flushDigits_small h1ne hb1, flushDigits_small h2ne hbound,
    pad8_eq_fixDigits hb1, pad8_eq_fixDigits hbound,
    List.append_assoc, List.append_assoc, lexLtB_append_same]
  refine lexLtB_append_of_eq_length _ _ ?_ ?_
  · rw [length_fixDigits, length_fixDigits]
  · refine fixDigits_lt hlt ?_
    norm_num at hbound ⊢
    omega

/-- Witness for C7's first conjunct at a concrete input: within an
eight-digit run, `page9.jpg` compares before `page10.jpg`. -/
theorem naturalLess_spec_witness :
    naturalLess ("page" ++ String.mk ['9'] ++ ".jpg")
      ("page" ++ String.mk ['1', '0'] ++ ".jpg") = true :=
  naturalLess_spec.1 "page" ".jpg" ['9'] ['1', '0'] (by decide) (by decide)
    (by decide) (by decide) (by decide) (by decide) (by decide) (by decide)


/-! ### Chapter number extraction (claim C8) -/

theorem matchNumberAt_none {cs : List Char} (h : ∀ c ∈ cs, isDigitCh c = false) :
    matchNumberAt cs = none := by
  cases cs with
  | nil => rfl
  | cons c rest =>
    have hc : isDigitCh c = false := h c (List.mem_cons_self c rest)
    simp [matchNumberAt, List.takeWhile_cons, hc]

theorem stripCI_subset : ∀ ps cs r, stripCI ps cs = some r → ∀ c ∈ r, c ∈ cs := by
  intro ps
  induction ps with
  | nil =>
    intro cs r h c hc
    have : cs = r := by simpa [stripCI] using h
    subst this
    exact hc
  | cons p ps ih =>
    intro cs r h c hc
    cases cs with
    | nil => exact absurd h (by simp [stripCI])
    | cons x xs =>
      simp only [stripCI] at h
      by_cases he : lowerCh x = p
      · rw [if_pos he] at h
        exact List.mem_cons_of_mem x (ih xs r h c hc)
      · rw [if_neg he] at h
        exact absurd h (by simp)

theorem tryParseAt_none {cs : List Char} (h : ∀ c ∈ cs, isDigitCh c = false) :
    tryParseAt cs = none := by
  have hnum : ∀ ps (r : List Char), stripCI ps cs = some r →
      matchNumberAt (r.dropWhile isWSCh) = none := by
    intro ps r hr
    refine matchNumberAt_none fun c hc => ?_
    exact h c (stripCI_subset ps cs r hr c ((List.dropWhile_sublist _).subset hc))
  rw [tryParseAt]
  cases h7 : stripCI "chapter".data cs with
  | none =>
    cases h2 : stripCI "ch".data cs with
    | none => simp [h7, h2, matchNumberAt_none h]
    | some r2 => simp [h7, h2, hnum _ r2 h2, matchNumberAt_none h]
  | some r7 =>
    cases h2 : stripCI "ch".data cs with
    | none => simp [h7, h2, hnum _ r7 h7, matchNumberAt_none h]
    | some r2 => simp [h7, h2, hnum _ r7 h7, hnum _ r2 h2, matchNumberAt_none h]

theorem findChapterNumber_none : ∀ cs, (∀ c ∈ cs, isDigitCh c = false) →
    findChapterNumber cs = none := by
  intro cs
  induction cs with
  | nil => intro _; rfl
  | cons c rest ih =>
    intro h
    rw [findChapterNumber, tryParseAt_none h, ih fun x hx => h x (List.mem_cons_of_mem c hx)]
    rfl

/-- C8: `parseChapterNumber` maps `"Chapter 12"` to `12.0` and `"Ch. 4.5"`
to `4.5`; a name with no numeric pattern (such as `"Oneshot"`, and in
general any name without a decimal digit) yields the absent value rather
than an error (the function returns the null option in that case and in
the `ParseFloat`-failure case, by definition of `parseChapterNumber`); and
with several numeric substrings the first match wins. -/
theorem parseChapterNumber_spec :
    parseChapterNumber "Chapter 12" = some 12 ∧
    parseChapterNumber "Ch. 4.5" = some (9 / 2) ∧
    parseChapterNumber "Oneshot" = none ∧
    (∀ name : String, (∀ c ∈ name.data, isDigitCh c = false) →
      parseChapterNumber name = none) ∧
    parseChapterNumber "Ch 2 bonus 7" = some 2 := by
  refine ⟨?_, ?_, ?_, ?_, ?_⟩
  · have hfind : findChapterNumber "Chapter 12".data = some ['1', '2'] := by decide
    simp only [parseChapterNumber, hfind]
    simp only [parseDecQ,
      show List.takeWhile isDigitCh ['1', '2'] = ['1', '2'] from by decide,
      show List.dropWhile isDigitCh ['1', '2'] = [] from by decide,
      show digitsToNat ['1', '2'] = 12 from by decide]
    norm_num [maxFloat64Bound]
  · have hfind : findChapterNumber "Ch. 4.5".data = some ['4', '.', '5'] := by decide
    simp only [parseChapterNumber, hfind]
    simp only [parseDecQ,
      show List.takeWhile isDigitCh ['4', '.', '5'] = ['4'] from by decide,
      show List.dropWhile isDigitCh ['4', '.', '5'] = ['.', '5'] from by decide,
      show List.takeWhile isDigitCh ['5'] = ['5'] from by decide,
      show digitsToNat ['4'] = 4 from by decide,
      show digitsToNat ['5'] = 5 from by decide]
    norm_num [maxFloat64Bound]
  · have hfind : findChapterNumber "Oneshot".data = none := by decide
    simp only [parseChapterNumber, hfind]
  · intro name h
    rw [parseChapterNumber, findChapterNumber_none name.data h]
  · have hfind : findChapterNumber "Ch 2 bonus 7".data = some ['2'] := by decide
    simp only [parseChapterNumber, hfind]
    simp only [parseDecQ,
      show List.takeWhile isDigitCh ['2'] = ['2'] from by decide,
      show List.dropWhile isDigitCh ['2'] = [] from by decide,
      show digitsToNat ['2'] = 2 from by decide]
    norm_num [maxFloat64Bound]

/-- Witness for C8's universally quantified conjunct at a concrete input:
a digit-free name yields an absent chapter number. -/
theorem parseChapterNumber_spec_witness : parseChapterNumber "Extras" = none :=
  parseChapterNumber_spec.2.2.2.1 "Extras" (by decide)


/-! ### Generic facts about the `sortBy` model of `sort.Slice` -/

theorem length_insertBy {α : Type} (less : α → α → Bool) (x : α) (l : List α) :
    (insertBy less x l).length = l.length + 1 := by
  induction l with
  | nil => rfl
  | cons y ys ih =>
    rw [insertBy]
    by_cases h : less x y = true
    · rw [if_pos h]
      rfl
    · rw [if_neg h, List.length_cons, ih, List.length_cons]

theorem perm_insertBy {α : Type} (less : α → α → Bool) (x : α) (l : List α) :
    List.Perm (insertBy less x l) (x :: l) := by
  induction l with
  | nil => exact List.Perm.refl _
  | cons y ys ih =>
    rw [insertBy]
    by_cases h : less x y = true
    · rw [if_pos h]
    · rw [if_neg h]
      exact (List.Perm.cons y ih).trans (List.Perm.swap x y ys)

theorem perm_sortBy {α : Type} (less : α → α → Bool) (l : List α) :
    List.Perm (sortBy less l) l := by
  induction l with
  | nil => exact List.Perm.refl _
  | cons x xs ih =>
    exact (perm_insertBy less x (sortBy less xs)).trans (List.Perm.cons x ih)

theorem length_sortBy {α : Type} (less : α → α → Bool) (l : List α) :
    (sortBy less l).length = l.length :=
  (perm_sortBy less l).length_eq

theorem mem_insertBy {α : Type} {less : α → α → Bool} {x z : α} {l : List α}
    (h : z ∈ insertBy less x l) : z = x ∨ z ∈ l := by
  have := (perm_insertBy less x l).mem_iff.mp h
  simpa using this

theorem pairwise_insertBy {α : Type} {less : α → α → Bool}
    (htrans : ∀ a b c, less a b = true → less b c = true → less a c = true)
    (hirr : ∀ a, less a a = false) (x : α) {l : List α}
    (hl : l.Pairwise fun a b => less b a = false) :
    (insertBy less x l).Pairwise fun a b => less b a = false := by
  induction l with
  | nil => simp [insertBy]
  | cons y ys ih =>
    rcases List.pairwise_cons.mp hl with ⟨hy, hys⟩
    rw [insertBy]
    by_cases hxy : less x y = true
    · rw [if_pos hxy]
      refine List.pairwise_cons.mpr ⟨?_, hl⟩
      intro z hz
      rcases List.mem_cons.mp hz with rfl | hz
      · cases hyx : less z x with
        | false => rfl
        | true =>
          have h1 := htrans x z x hxy hyx
          rw [hirr x] at h1
          exact absurd h1 (by simp)
      · cases hzx : less z x with
        | false => rfl
        | true =>
          have h1 := htrans z x y hzx hxy
          rw [hy z hz] at h1
          exact absurd h1 (by simp)
    · rw [if_neg hxy]
      refine List.pairwise_cons.mpr ⟨?_, ih hys⟩
      intro z hz
      rcases mem_insertBy hz with rfl | hz
      · exact Bool.not_eq_true _ ▸ (by simpa using hxy)
      · exact hy z hz

theorem pairwise_sortBy {α : Type} {less : α → α → Bool}
    (htrans : ∀ a b c, less a b = true → less b c = true → less a c = true)
    (hirr : ∀ a, less a a = false) (l : List α) :
    (sortBy less l).Pairwise fun a b => less b a = false := by
  induction l with
  | nil => exact List.Pairwise.nil
  | cons x xs ih => exact pairwise_insertBy htrans hirr x ih

/-! ### Chapter collection (claim C3) -/

theorem collectPagesAux_none (files : List FSEntry) (st : ScanSt) (acc : List PageMeta) :
    collectPagesAux none files st acc =
      .ok (acc.reverse ++ (files.filter fun f => isImageFile (compsPath f.comps)).map pageOf,
        ⟨st.polls + files.length, st.ticks⟩) := by
  induction files generalizing st acc with
  | nil =>
    cases st
    simp [collectPagesAux]
  | cons f rest ih =>
    rw [collectPagesAux]
    have hfalse : (ctxDone none st).1 = false := rfl
    rw [if_neg (by rw [hfalse]; exact Bool.false_ne_true)]
    by_cases him : isImageFile (compsPath f.comps) = true
    · rw [if_pos him, ih]
      simp [ctxDone, List.filter_cons, him, ScanSt.mk.injEq]
      omega
    · rw [if_neg him, ih]
      simp [ctxDone, List.filter_cons, him, ScanSt.mk.injEq]
      omega


theorem sortIndex_spec (pages0 : List PageMeta) :
    ((sortBy (fun a b => naturalLess (basename a.path) (basename b.path)) pages0).enum.map
        (fun ip => { ip.2 with index := ip.1 })).length = pages0.length ∧
    ((sortBy (fun a b => naturalLess (basename a.path) (basename b.path)) pages0).enum.map
        (fun ip => { ip.2 with index := ip.1 })).map (fun p => p.index) =
      List.range pages0.length ∧
    List.Perm (((sortBy (fun a b => naturalLess (basename a.path) (basename b.path))
          pages0).enum.map (fun ip => { ip.2 with index := ip.1 })).map fun p => p.path)
      (pages0.map fun p => p.path) ∧
    (((sortBy (fun a b => naturalLess (basename a.path) (basename b.path)) pages0).enum.map
        (fun ip => { ip.2 with index := ip.1 })).map fun p => p.path).Pairwise
      fun a b => naturalLess (basename b) (basename a) = false := by
  have hlen : (sortBy (fun a b => naturalLess (basename a.path) (basename b.path))
      pages0).length = pages0.length := length_sortBy _ _
  have hpath : (((sortBy (fun a b => naturalLess (basename a.path) (basename b.path))
        pages0).enum.map (fun ip => { ip.2 with index := ip.1 })).map fun p => p.path) =
      (sortBy (fun a b => naturalLess (basename a.path) (basename b.path)) pages0).map
        (fun p => p.path) := by
    rw [List.map_map]
    have hc : ((fun p => p.path) ∘ fun ip : Nat × PageMeta => { ip.2 with index := ip.1 }) =
        (fun p => p.path) ∘ (Prod.snd : Nat × PageMeta → PageMeta) := rfl
    rw [hc, ← List.map_map, List.enum_map_snd]
  refine ⟨?_, ?_, ?_, ?_⟩
  · rw [List.length_map, List.enum_length, hlen]
  · rw [List.map_map]
    have hc : ((fun p => p.index) ∘ fun ip : Nat × PageMeta => { ip.2 with index := ip.1 }) =
        (Prod.fst : Nat × PageMeta → Nat) := rfl
    rw [hc, List.enum_map_fst, hlen]
  · rw [hpath]
    exact (perm_sortBy _ pages0).map _
  · rw [hpath]
    rw [List.pairwise_map]
    have htrans : ∀ a b c : PageMeta,
        naturalLess (basename a.path) (basename b.path) = true →
        naturalLess (basename b.path) (basename c.path) = true →
        naturalLess (basename a.path) (basename c.path) = true :=
      fun a b c h1 h2 => lexLtB_trans h1 h2
    have hirr : ∀ a : PageMeta, naturalLess (basename a.path) (basename a.path) = false :=
      fun a => lexLtB_irrefl _
    exact @pairwise_sortBy PageMeta
      (fun a b => naturalLess (basename a.path) (basename b.path)) htrans hirr pages0

/-- C3: collecting a chapter directory whose walk visits `files` with an
uncancelled context succeeds (non-image files produce neither a record nor
an error): it returns exactly one page record per allow-listed image file,
with `page_index` values exactly `0..N-1` assigned along the natural order
of the files' base names, and `pageCount = N`. -/
theorem collectChapter_spec (fs : FS) (cp : String) (files : List FSEntry) (st : ScanSt)
    (hw : walkFiles fs cp = some files) :
    ∃ meta pages st',
      collectChapter none fs cp st = .ok ((meta, pages), st') ∧
      pages.length = (files.filter fun f => isImageFile (compsPath f.comps)).length ∧
      pages.map (fun p => p.index) = List.range pages.length ∧
      meta.pageCount = pages.length ∧
      List.Perm (pages.map fun p => p.path)
        ((files.filter fun f => isImageFile (compsPath f.comps)).map fun f =>
          compsPath f.comps) ∧
      (pages.map fun p => p.path).Pairwise
        fun a b => naturalLess (basename b) (basename a) = false := by
  have hfind : ∃ e, findEntry fs (pathComps cp) = some e := by
    rw [walkFiles] at hw
    cases h : findEntry fs (pathComps cp) with
    | none => rw [h] at hw; exact absurd hw (by simp)
    | some e => exact ⟨e, rfl⟩
  obtain ⟨e, he⟩ := hfind
  obtain ⟨h1, h2, h3, h4⟩ :=
    sortIndex_spec ((files.filter fun f => isImageFile (compsPath f.comps)).map pageOf)
  have h1' := h1.trans (List.length_map _ _)
  have hcol : collectChapter none fs cp st = .ok
      ((⟨cp, basename cp, parseChapterNumber (basename cp),
          ((sortBy (fun a b => naturalLess (basename a.path) (basename b.path))
              ((files.filter fun f => isImageFile (compsPath f.comps)).map pageOf)).enum.map
            (fun ip => { ip.2 with index := ip.1 })).length,
         e.mtime⟩,
        (sortBy (fun a b => naturalLess (basename a.path) (basename b.path))
            ((files.filter fun f => isImageFile (compsPath f.comps)).map pageOf)).enum.map
          (fun ip => { ip.2 with index := ip.1 })),
       ⟨st.polls + files.length, st.ticks⟩) := by
    simp only [collectChapter, hw, collectPagesAux_none, he, List.reverse_nil,
      List.nil_append]
  refine ⟨_, _, _, hcol, h1', ?_, rfl, ?_, h4⟩
  · rw [h1']
    rw [List.length_map] at h2
    exact h2
  · refine h3.trans ?_
    rw [List.map_map]
    have hc : ((fun p => p.path) ∘ pageOf) = fun f => compsPath f.comps := rfl
    rw [hc]


/-- Witness for C3 at a concrete chapter: two image files (natural order
`b9.JPG` before `b10.jpg`) and one ignored text file. -/
theorem collectChapter_spec_witness :
    ∃ meta pages st',
      collectChapter none
        [⟨["lib"], true, 0, 0⟩, ⟨["lib", "T"], true, 0, 0⟩,
         ⟨["lib", "T", "Cha"], true, 0, 3⟩,
         ⟨["lib", "T", "Cha", "b10.jpg"], false, 1, 1⟩,
         ⟨["lib", "T", "Cha", "b9.JPG"], false, 2, 2⟩,
         ⟨["lib", "T", "Cha", "notes.txt"], false, 3, 3⟩]
        "/lib/T/Cha" ⟨0, 0⟩ = .ok ((meta, pages), st') ∧
      pages.length = (([⟨["lib"], true, 0, 0⟩, ⟨["lib", "T"], true, 0, 0⟩,
         ⟨["lib", "T", "Cha"], true, 0, 3⟩,
         ⟨["lib", "T", "Cha", "b10.jpg"], false, 1, 1⟩,
         ⟨["lib", "T", "Cha", "b9.JPG"], false, 2, 2⟩,
         ⟨["lib", "T", "Cha", "notes.txt"], false, 3, 3⟩] : FS).filter fun f =>
          isImageFile (compsPath f.comps)).length ∧
      pages.map (fun p => p.index) = List.range pages.length ∧
      meta.pageCount = pages.length ∧
      List.Perm (pages.map fun p => p.path)
        ((([⟨["lib"], true, 0, 0⟩, ⟨["lib", "T"], true, 0, 0⟩,
         ⟨["lib", "T", "Cha"], true, 0, 3⟩,
         ⟨["lib", "T", "Cha", "b10.jpg"], false, 1, 1⟩,
         ⟨["lib", "T", "Cha", "b9.JPG"], false, 2, 2⟩,
         ⟨["lib", "T", "Cha", "notes.txt"], false, 3, 3⟩] : FS).filter fun f =>
          isImageFile (compsPath f.comps)).map fun f => compsPath f.comps) ∧
      (pages.map fun p => p.path).Pairwise
        fun a b => naturalLess (basename b) (basename a) = false :=
  collectChapter_spec _ "/lib/T/Cha"
    [⟨["lib", "T", "Cha", "b10.jpg"], false, 1, 1⟩,
     ⟨["lib", "T", "Cha", "b9.JPG"], false, 2, 2⟩,
     ⟨["lib", "T", "Cha", "notes.txt"], false, 3, 3⟩] ⟨0, 0⟩ (by decide)

/-! ### Empty titles are never persisted (claim C6) -/

theorem ctxDone_none (st : ScanSt) : ctxDone none st = (false, ⟨st.polls + 1, st.ticks⟩) := rfl

theorem execWrite_noFaults (st : ScanSt) :
    execWrite noFaults none st = .ok ⟨st.polls + 1, st.ticks + 1⟩ := rfl

theorem scanChapters_skip (fs : FS) (mangaID : String) (cps : List String) (tx : DB)
    (st : ScanSt) (c p : Nat) (m : Int)
    (hempty : ∀ cp ∈ cps, (walkFiles fs cp).all (fun files =>
      (files.filter fun f => isImageFile (compsPath f.comps)).isEmpty) = true) :
    ∃ st', scanChapters noFaults none fs mangaID cps tx st c p m = .ok (tx, st', c, p, m) := by
  induction cps generalizing st with
  | nil => exact ⟨st, rfl⟩
  | cons cp rest ih =>
    have hrest := fun cp2 h2 => hempty cp2 (List.mem_cons_of_mem cp h2)
    have hcp := hempty cp (List.mem_cons_self cp rest)
    rw [scanChapters]
    cases hw : walkFiles fs cp with
    | none =>
      have : collectChapter none fs cp st = .error st := by
        simp only [collectChapter, hw]
      rw [this]
      exact ih st hrest
    | some files =>
      rw [hw, Option.all_some] at hcp
      have hfilter : (files.filter fun f => isImageFile (compsPath f.comps)) = [] := by
        simpa [List.isEmpty_iff] using hcp
      cases he : findEntry fs (pathComps cp) with
      | none =>
        have : collectChapter none fs cp st = .error ⟨st.polls + files.length, st.ticks⟩ := by
          simp only [collectChapter, hw, collectPagesAux_none, he]
        rw [this]
        exact ih ⟨st.polls + files.length, st.ticks⟩ hrest
      | some e =>
        have : collectChapter none fs cp st = .ok
            ((⟨cp, basename cp, parseChapterNumber (basename cp), 0, e.mtime⟩, []),
             ⟨st.polls + files.length, st.ticks⟩) := by
          simp only [collectChapter, hw, collectPagesAux_none, he, List.reverse_nil,
            List.nil_append, hfilter, List.map_nil, sortBy, List.enum_nil, List.map_nil,
            List.length_nil]
        rw [this]
        exact ih ⟨st.polls + files.length, st.ticks⟩ hrest

/-- C6: a title directory all of whose chapter subdirectories yield zero
qualifying image pages (in particular one with no chapter subdirectories
at all) leaves the database exactly unchanged: either no transaction is
opened, or the transaction — title upsert included — is rolled back
entirely, so no title, chapter or page row for that title is persisted
when the scan completes. -/
theorem processTitle_empty (fs : FS) (mangaPath title : String) (db : DB) (st : ScanSt)
    (names : List String) (hnames : readChapterDirsM fs mangaPath = some names)
    (hempty : ∀ cp ∈ names.map (joinPath mangaPath), (walkFiles fs cp).all (fun files =>
      (files.filter fun f => isImageFile (compsPath f.comps)).isEmpty) = true) :
    ∃ st', processTitle noFaults none fs mangaPath title db st = .ok (db, st') := by
  by_cases hn : names = []
  · refine ⟨st, ?_⟩
    subst hn
    simp [processTitle, hnames]
  · obtain ⟨st', hsc⟩ := scanChapters_skip fs (stableID "manga" mangaPath)
      (names.map (joinPath mangaPath))
      { db with manga := upsertMangaRows db.manga (stableID "manga" mangaPath) title mangaPath }
      ⟨st.polls + 1 + 1, st.ticks + 1⟩ 0 0 0 hempty
    refine ⟨st', ?_⟩
    simp [processTitle, hnames, if_neg hn, ctxDone_none, execWrite_noFaults, hsc]


/-- Witness for C6 at a concrete input: a title whose single chapter
holds only a text file is not persisted at all. -/
theorem processTitle_empty_witness :
    ∃ st', processTitle noFaults none
      [⟨["lib"], true, 0, 0⟩, ⟨["lib", "T"], true, 0, 0⟩,
       ⟨["lib", "T", "Cha"], true, 0, 3⟩,
       ⟨["lib", "T", "Cha", "notes.txt"], false, 3, 3⟩]
      "/lib/T" "T" ⟨[], [], [], []⟩ ⟨0, 0⟩ = .ok (⟨[], [], [], []⟩, st') :=
  processTitle_empty _ "/lib/T" "T" ⟨[], [], [], []⟩ ⟨0, 0⟩ ["Cha"]
    (by decide) (by decide)

/-! ### Scanner upserts and foreign state (claim C10) -/

theorem upsertManga_cover (rows : List MangaRow) (id title path : String) (i : Nat)
    (h : i < rows.length) :
    ((upsertMangaRows rows id title path)[i]?.map fun r => r.cover_page_id) =
      rows[i]?.map fun r => r.cover_page_id := by
  rw [upsertMangaRows]
  by_cases hx : rows.any fun r => r.path = path
  · rw [if_pos hx, List.getElem?_map]
    cases hr : rows[i]? with
    | none => rfl
    | some r =>
      by_cases hp : r.path = path
      · simp [hp]
      · simp [hp]
  · rw [if_neg hx, List.getElem?_append_left h]

theorem pageWrite_checksum (rows : List PageRow) (id cid : String) (idx : Nat)
    (path mime : String) (size mtime : Int) (i : Nat) (h : i < rows.length) :
    ((pageWrite rows id cid idx path mime size mtime)[i]?.map fun r => r.checksum) =
      rows[i]?.map fun r => r.checksum := by
  rw [pageWrite]
  by_cases hx : rows.any fun r => r.path = path
  · rw [if_pos hx, List.getElem?_map]
    cases hr : rows[i]? with
    | none => rfl
    | some r =>
      by_cases hp : r.path = path
      · simp [hp]
      · simp [hp]
  · rw [if_neg hx, List.getElem?_append_left h]

theorem pageWrite_width_height (rows : List PageRow) (id cid : String) (idx : Nat)
    (path mime : String) (size mtime : Int) :
    ∀ r ∈ pageWrite rows id cid idx path mime size mtime,
      r.path = path → r.width = none ∧ r.height = none := by
  intro r hr hrp
  rw [pageWrite] at hr
  by_cases hx : rows.any fun r => r.path = path
  · rw [if_pos hx] at hr
    obtain ⟨r0, hr0, hre⟩ := List.mem_map.mp hr
    by_cases hp : r0.path = path
    · rw [if_pos hp] at hre
      subst hre
      exact ⟨rfl, rfl⟩
    · rw [if_neg hp] at hre
      subst hre
      exact absurd hrp hp
  · rw [if_neg hx] at hr
    rcases List.mem_append.mp hr with hr | hr
    · rw [List.any_eq_true] at hx
      exact absurd ⟨r, hr, by simpa using hrp⟩ hx
    · rw [List.mem_singleton] at hr
      subst hr
      exact ⟨rfl, rfl⟩

theorem upsertPages_progress (faults : Nat → Bool) (ctx : Option Nat) (cid : String) :
    ∀ (pages : List PageMeta) (tx : DB) (st : ScanSt) (r : DB × ScanSt),
      upsertPages faults ctx cid pages tx st = .ok r → r.1.progress = tx.progress := by
  intro pages
  induction pages with
  | nil =>
    intro tx st r h
    cases h
    rfl
  | cons p rest ih =>
    intro tx st r h
    rw [upsertPages] at h
    cases he : execWrite faults ctx st with
    | error e => rw [he] at h; cases h
    | ok st1 =>
      rw [he] at h
      dsimp only at h
      by_cases hc : pageConflict
          (pageWrite tx.page p.id cid p.index p.path p.mime p.size p.fileMTime) p.path cid
          p.index = true
      · rw [if_pos hc] at h; cases h
      · rw [if_neg hc] at h
        exact (ih _ _ _ h).trans rfl

theorem scanChapters_progress (faults : Nat → Bool) (ctx : Option Nat) (fs : FS)
    (mangaID : String) : ∀ (cps : List String) (tx : DB) (st : ScanSt)
      (c p : Nat) (m : Int) (r : DB × ScanSt × Nat × Nat × Int),
      scanChapters faults ctx fs mangaID cps tx st c p m = .ok r →
      r.1.progress = tx.progress := by
  intro cps
  induction cps with
  | nil =>
    intro tx st c p m r h
    cases h
    rfl
  | cons cp rest ih =>
    intro tx st c p m r h
    rw [scanChapters] at h
    cases hcol : collectChapter ctx fs cp st with
    | error st1 =>
      rw [hcol] at h
      exact ih _ _ _ _ _ _ h
    | ok res =>
      rw [hcol] at h
      obtain ⟨⟨meta, pages⟩, st1⟩ := res
      dsimp only at h
      by_cases hz : meta.pageCount = 0
      · rw [if_pos hz] at h
        exact ih _ _ _ _ _ _ h
      · rw [if_neg hz] at h
        cases he : execWrite faults ctx st1 with
        | error e => rw [he] at h; cases h
        | ok st2 =>
          rw [he] at h
          dsimp only at h
          cases hup : upsertPages faults ctx (stableID "chapter" cp) pages
              { tx with chapter := (upsertChapterRows tx.chapter (stableID "chapter" cp)
                mangaID meta.title meta.number meta.path meta.pageCount meta.mtime) } st2 with
          | error e => rw [hup] at h; cases h
          | ok r2 =>
            rw [hup] at h
            dsimp only at h
            have h1 := upsertPages_progress faults ctx (stableID "chapter" cp) pages _ _ _ hup
            have h2 := ih _ _ _ _ _ _ h
            rw [h2, h1]

theorem processTitle_progress (faults : Nat → Bool) (ctx : Option Nat) (fs : FS)
    (mangaPath title : String) (db : DB) (st : ScanSt) (r : DB × ScanSt)
    (h : processTitle faults ctx fs mangaPath title db st = .ok r) :
    r.1.progress = db.progress := by
  rw [processTitle] at h
  cases hrd : readChapterDirsM fs mangaPath with
  | none =>
    rw [hrd] at h
    cases h
    rfl
  | some names =>
    rw [hrd] at h
    dsimp only at h
    by_cases hn : names = []
    · rw [if_pos hn] at h
      cases h
      rfl
    · rw [if_neg hn] at h
      by_cases hc : (ctxDone ctx st).1 = true
      · rw [if_pos hc] at h; cases h
      · rw [if_neg hc] at h
        cases he : execWrite faults ctx (ctxDone ctx st).2 with
        | error e => rw [he] at h; cases h
        | ok st2 =>
          rw [he] at h
          dsimp only at h
          cases hsc : scanChapters faults ctx fs (stableID "manga" mangaPath)
              (names.map (joinPath mangaPath))
              { db with manga := (upsertMangaRows db.manga (stableID "manga" mangaPath)
                title mangaPath) } st2 0 0 0 with
          | error e => rw [hsc] at h; cases h
          | ok res =>
            rw [hsc] at h
            obtain ⟨tx2, st3, chapterCount, pageCount, mtime⟩ := res
            dsimp only at h
            by_cases hz : chapterCount = 0
            · rw [if_pos hz] at h
              cases h
              rfl
            · rw [if_neg hz] at h
              cases he2 : execWrite faults ctx st3 with
              | error e => rw [he2] at h; cases h
              | ok st4 =>
                rw [he2] at h
                dsimp only at h
                by_cases hc2 : (ctxDone ctx st4).1 = true
                · rw [if_pos hc2] at h; cases h
                · rw [if_neg hc2] at h
                  cases h
                  exact scanChapters_progress faults ctx fs _ _ _ _ _ _ _ _ hsc

theorem scanEntries_progress (faults : Nat → Bool) (ctx : Option Nat) (fs : FS)
    (root : String) : ∀ (entries : List FSEntry) (db : DB) (st : ScanSt),
      (scanEntries faults ctx fs root entries db st).1.progress = db.progress := by
  intro entries
  induction entries with
  | nil => intro db st; rfl
  | cons e rest ih =>
    intro db st
    rw [scanEntries]
    by_cases hd : ¬ e.isDir = true
    · rw [if_pos hd]
      exact ih db st
    · rw [if_neg hd]
      by_cases hc : (ctxDone ctx st).1 = true
      · rw [if_pos hc]
      · rw [if_neg hc]
        cases hp : processTitle faults ctx fs (joinPath root (entryName e)) (entryName e)
            db (ctxDone ctx st).2 with
        | error e2 =>
          obtain ⟨err, st2⟩ := e2
          rfl
        | ok r =>
          obtain ⟨db2, st2⟩ := r
          dsimp only
          rw [ih db2 st2]
          exact processTitle_progress faults ctx fs _ _ _ _ _ hp

theorem scanRoots_progress (faults : Nat → Bool) (ctx : Option Nat) (fs : FS) :
    ∀ (roots : List String) (db : DB) (st : ScanSt),
      (scanRoots faults ctx fs roots db st).1.progress = db.progress := by
  intro roots
  induction roots with
  | nil => intro db st; rfl
  | cons root rest ih =>
    intro db st
    rw [scanRoots]
    by_cases hc : (ctxDone ctx st).1 = true
    · rw [if_pos hc]
    · rw [if_neg hc]
      dsimp only
      cases hrd : readDirM fs (cleanPath root) with
      | none => exact ih db _
      | some entries =>
        dsimp only
        rcases hse : scanEntries faults ctx fs (cleanPath root) entries db (ctxDone ctx st).2
          with ⟨db2, st2, err⟩
        have hpr : db2.progress = db.progress := by
          have := scanEntries_progress faults ctx fs (cleanPath root) entries db
            (ctxDone ctx st).2
          rw [hse] at this
          exact this
        cases err with
        | none =>
          dsimp only
          rw [ih db2 st2]
          exact hpr
        | some e2 => exact hpr


theorem Scan_progress (faults : Nat → Bool) (ctx : Option Nat) (fs : FS)
    (roots : List String) (db : DB) :
    (Scan faults ctx fs roots db).1.progress = db.progress := by
  rw [Scan]
  by_cases h : roots = []
  · rw [if_pos h]
  · rw [if_neg h]
    exact scanRoots_progress faults ctx fs roots db ⟨0, 0⟩

/-- C10 counterexample: the page upsert's update clause does not leave
`width` unchanged on an existing row — re-upserting the same path
overwrites a stored width (and height) with the scanner's null values. -/
theorem pageWrite_width_counterexample :
    ¬ ((pageWrite
        [⟨"idA", "c", 0, "/p/1.jpg", "image/jpeg", some 100, some 200, 5, some 7, some "ab"⟩]
        "idA" "c" 0 "/p/1.jpg" "image/jpeg" 5 7).map fun r => r.width) =
      ([⟨"idA", "c", 0, "/p/1.jpg", "image/jpeg", some 100, some 200, 5, some 7, some "ab"⟩]
        : List PageRow).map fun r => r.width := by decide

/-- C10 (amended): the title upsert's update clause leaves every existing
row's `cover_page_id` unchanged; the page upsert's update clause leaves
every existing row's `checksum` unchanged; however `width` and `height`
are in the page update clause and are set to the scanner's (null) values
on the upserted path; and a scan never touches rows of other tables such
as reading progress. -/
theorem scanner_upsert_frame :
    (∀ (rows : List MangaRow) (id title path : String) (i : Nat), i < rows.length →
      ((upsertMangaRows rows id title path)[i]?.map fun r => r.cover_page_id) =
        rows[i]?.map fun r => r.cover_page_id) ∧
    (∀ (rows : List PageRow) (id cid : String) (idx : Nat) (path mime : String)
      (size mtime : Int) (i : Nat), i < rows.length →
      ((pageWrite rows id cid idx path mime size mtime)[i]?.map fun r => r.checksum) =
        rows[i]?.map fun r => r.checksum) ∧
    (∀ (rows : List PageRow) (id cid : String) (idx : Nat) (path mime : String)
      (size mtime : Int), ∀ r ∈ pageWrite rows id cid idx path mime size mtime,
      r.path = path → r.width = none ∧ r.height = none) ∧
    (∀ (faults : Nat → Bool) (ctx : Option Nat) (fs : FS) (roots : List String) (db : DB),
      (Scan faults ctx fs roots db).1.progress = db.progress) :=
  ⟨fun rows id title path i h => upsertManga_cover rows id title path i h,
   fun rows id cid idx path mime size mtime i h =>
     pageWrite_checksum rows id cid idx path mime size mtime i h,
   fun rows id cid idx path mime size mtime => pageWrite_width_height rows id cid idx
     path mime size mtime,
   fun faults ctx fs roots db => Scan_progress faults ctx fs roots db⟩

/-- Witness for C10's amended statement at a concrete input: upserting over
an existing page row keeps its checksum. -/
theorem scanner_upsert_frame_witness :
    ((pageWrite
        [⟨"idA", "c", 0, "/p/1.jpg", "image/jpeg", some 100, some 200, 5, some 7, some "ab"⟩]
        "idA" "c" 1 "/p/1.jpg" "image/jpeg" 5 7)[0]?.map fun r => r.checksum) =
      ([⟨"idA", "c", 0, "/p/1.jpg", "image/jpeg", some 100, some 200, 5, some 7, some "ab"⟩]
        : List PageRow)[0]?.map (fun r => r.checksum) :=
  scanner_upsert_frame.2.1
    [⟨"idA", "c", 0, "/p/1.jpg", "image/jpeg", some 100, some 200, 5, some 7, some "ab"⟩]
    "idA" "c" 1 "/p/1.jpg" "image/jpeg" 5 7 0 (by decide)


/-! ### The page uniqueness constraint can abort a legitimate re-scan
(claim C5) -/

set_option maxRecDepth 1000000 in
/-- C5: the page upsert sequence does violate the
`UNIQUE (chapter_id, page_index)` constraint on a legitimate re-scan.
First scan: the chapter holds only `b.jpg`, committed with `page_index 0`.
The file `a.jpg` is then added, so the re-scan assigns `a.jpg` index `0`
and `b.jpg` index `1`; the very first upsert inserts `a.jpg` at
`(chapter, 0)` while the committed `b.jpg` row still occupies that pair,
and since the statement's `ON CONFLICT` target is `path` alone, the
constraint fails and the whole scan aborts with a storage error. -/
theorem pageIndex_constraint_bug :
    (Scan noFaults none
      [⟨["lib"], true, 0, 0⟩, ⟨["lib", "T"], true, 0, 0⟩,
       ⟨["lib", "T", "Cha"], true, 0, 3⟩,
       ⟨["lib", "T", "Cha", "b.jpg"], false, 2, 2⟩]
      ["/lib"] ⟨[], [], [], []⟩).2.2 = none ∧
    (Scan noFaults none
      [⟨["lib"], true, 0, 0⟩, ⟨["lib", "T"], true, 0, 0⟩,
       ⟨["lib", "T", "Cha"], true, 0, 3⟩,
       ⟨["lib", "T", "Cha", "a.jpg"], false, 1, 1⟩,
       ⟨["lib", "T", "Cha", "b.jpg"], false, 2, 2⟩]
      ["/lib"]
      (Scan noFaults none
        [⟨["lib"], true, 0, 0⟩, ⟨["lib", "T"], true, 0, 0⟩,
         ⟨["lib", "T", "Cha"], true, 0, 3⟩,
         ⟨["lib", "T", "Cha", "b.jpg"], false, 2, 2⟩]
        ["/lib"] ⟨[], [], [], []⟩).1).2.2 = some (.storage .constraint) := by decide

/-! ### Cancellation is observed mid-chapter (claim C9) -/

set_option maxRecDepth 1000000 in
/-- C9 counterexample: a chapter collection that has started does not run
to completion when cancellation fires mid-walk — the context is polled for
every visited file, and the collection aborts with the context's error,
whereas the same collection completes without cancellation. -/
theorem collect_cancellation_counterexample :
    collectChapter (some 0)
      [⟨["lib"], true, 0, 0⟩, ⟨["lib", "T"], true, 0, 0⟩,
       ⟨["lib", "T", "Cha"], true, 0, 3⟩,
       ⟨["lib", "T", "Cha", "a.jpg"], false, 1, 1⟩,
       ⟨["lib", "T", "Cha", "b.jpg"], false, 2, 2⟩]
      "/lib/T/Cha" ⟨0, 0⟩ = .error ⟨1, 0⟩ ∧
    (collectChapter none
      [⟨["lib"], true, 0, 0⟩, ⟨["lib", "T"], true, 0, 0⟩,
       ⟨["lib", "T", "Cha"], true, 0, 3⟩,
       ⟨["lib", "T", "Cha", "a.jpg"], false, 1, 1⟩,
       ⟨["lib", "T", "Cha", "b.jpg"], false, 2, 2⟩]
      "/lib/T/Cha" ⟨0, 0⟩).isOk = true := by
  exact ⟨rfl, by decide⟩

set_option maxRecDepth 1000000 in
/-- C9 (amended): the cancellation signal is polled at root and title
granularity and additionally once per visited file inside a chapter
collection; a cancellation observed mid-chapter aborts that chapter's
collection with the context's error (the chapter is then skipped like any
failed chapter), and the scan returns the distinguished cancellation
error at the next title or root boundary, with no partial rows
committed. -/
theorem cancellation_mid_chapter :
    (∀ (fs : FS) (cp : String) (st : ScanSt) (n : Nat) (files : List FSEntry),
      walkFiles fs cp = some files → files ≠ [] → n ≤ st.polls →
      ∃ st', collectChapter (some n) fs cp st = .error st') ∧
    (Scan noFaults (some 4)
      [⟨["lib"], true, 0, 0⟩, ⟨["lib", "T1"], true, 0, 0⟩,
       ⟨["lib", "T1", "Cha"], true, 0, 3⟩,
       ⟨["lib", "T1", "Cha", "a.jpg"], false, 1, 1⟩,
       ⟨["lib", "T2"], true, 0, 0⟩]
      ["/lib"] ⟨[], [], [], []⟩).2.2 = some .canceled ∧
    (Scan noFaults (some 4)
      [⟨["lib"], true, 0, 0⟩, ⟨["lib", "T1"], true, 0, 0⟩,
       ⟨["lib", "T1", "Cha"], true, 0, 3⟩,
       ⟨["lib", "T1", "Cha", "a.jpg"], false, 1, 1⟩,
       ⟨["lib", "T2"], true, 0, 0⟩]
      ["/lib"] ⟨[], [], [], []⟩).1 = ⟨[], [], [], []⟩ := by
  refine ⟨?_, by decide, by decide⟩
  intro fs cp st n files hw hne hn
  refine ⟨⟨st.polls + 1, st.ticks⟩, ?_⟩
  cases files with
  | nil => exact absurd rfl hne
  | cons f rest =>
    have hcd : ctxDone (some n) st = (true, ⟨st.polls + 1, st.ticks⟩) := by
      rw [ctxDone]
      simp [decide_eq_true_eq, hn]
    simp only [collectChapter, hw, collectPagesAux, hcd]
    simp

/-- Witness for C9's universally quantified conjunct: a cancellation
already in effect aborts a one-file chapter collection at its first
visited file. -/
theorem cancellation_mid_chapter_witness :
    ∃ st', collectChapter (some 0)
      [⟨["lib"], true, 0, 0⟩, ⟨["lib", "T"], true, 0, 0⟩,
       ⟨["lib", "T", "Cha"], true, 0, 3⟩,
       ⟨["lib", "T", "Cha", "a.jpg"], false, 1, 1⟩]
      "/lib/T/Cha" ⟨0, 0⟩ = .error st' :=
  cancellation_mid_chapter.1 _ "/lib/T/Cha" ⟨0, 0⟩ 0
    [⟨["lib", "T", "Cha", "a.jpg"], false, 1, 1⟩] (by decide) (by decide) (by decide)


/-! ### Atomicity of storage failures (claim C1) -/

theorem scanEntries_storage_prefix (faults : Nat → Bool) (fs : FS) (root : String) :
    ∀ (entries : List FSEntry) (db : DB) (st : ScanSt) (db' : DB) (st' : ScanSt)
      (c : WriteFailure),
      scanEntries faults none fs root entries db st = (db', st', some (.storage c)) →
      ∃ pre e suf st2,
        entries = pre ++ e :: suf ∧ e.isDir = true ∧
        scanEntries faults none fs root pre db st = (db', st2, none) := by
  intro entries
  induction entries with
  | nil =>
    intro db st db' st' c h
    exact absurd (congrArg (fun t => t.2.2) h) (by simp [scanEntries])
  | cons e rest ih =>
    intro db st db' st' c h
    rw [scanEntries] at h
    by_cases hd : ¬ e.isDir = true
    · rw [if_pos hd] at h
      obtain ⟨pre, e2, suf, st2, h1, h2, h3⟩ := ih db st db' st' c h
      refine ⟨e :: pre, e2, suf, st2, by rw [h1]; rfl, h2, ?_⟩
      rw [scanEntries, if_pos hd]
      exact h3
    · rw [if_neg hd, ctxDone_none] at h
      dsimp only at h
      rw [if_neg (by simp)] at h
      cases hp : processTitle faults none fs (joinPath root (entryName e)) (entryName e)
          db ⟨st.polls + 1, st.ticks⟩ with
      | error err2 =>
        rw [hp] at h
        obtain ⟨err, st2⟩ := err2
        dsimp only at h
        have hdbeq : db = db' := congrArg (fun t => t.1) h
        subst hdbeq
        exact ⟨[], e, rest, st, rfl, not_not.mp hd, rfl⟩
      | ok r =>
        rw [hp] at h
        obtain ⟨db2, st2⟩ := r
        dsimp only at h
        obtain ⟨pre, e2, suf, st3, h1, h2, h3⟩ := ih db2 st2 db' st' c h
        refine ⟨e :: pre, e2, suf, st3, by rw [h1]; rfl, h2, ?_⟩
        rw [scanEntries, if_neg hd, ctxDone_none]
        dsimp only
        rw [if_neg (by simp), hp]
        exact h3

theorem scanRoots_storage_prefix (faults : Nat → Bool) (fs : FS) :
    ∀ (roots : List String) (db : DB) (st : ScanSt) (db' : DB) (st' : ScanSt)
      (c : WriteFailure),
      scanRoots faults none fs roots db st = (db', st', some (.storage c)) →
      ∃ rpre root rsuf db1 st1 entries pre e suf st2,
        roots = rpre ++ root :: rsuf ∧
        scanRoots faults none fs rpre db st = (db1, st1, none) ∧
        readDirM fs (cleanPath root) = some entries ∧
        entries = pre ++ e :: suf ∧ e.isDir = true ∧
        scanEntries faults none fs (cleanPath root) pre db1 ⟨st1.polls + 1, st1.ticks⟩ =
          (db', st2, none) := by
  intro roots
  induction roots with
  | nil =>
    intro db st db' st' c h
    exact absurd (congrArg (fun t => t.2.2) h) (by simp [scanRoots])
  | cons root rest ih =>
    intro db st db' st' c h
    rw [scanRoots, ctxDone_none] at h
    dsimp only at h
    rw [if_neg (by simp)] at h
    cases hrd : readDirM fs (cleanPath root) with
    | none =>
      rw [hrd] at h
      dsimp only at h
      obtain ⟨rpre, root2, rsuf, db1, st1, entries, pre, e, suf, st2,
        h1, h2, h3, h4, h5, h6⟩ := ih db ⟨st.polls + 1, st.ticks⟩ db' st' c h
      refine ⟨root :: rpre, root2, rsuf, db1, st1, entries, pre, e, suf, st2,
        by rw [h1]; rfl, ?_, h3, h4, h5, h6⟩
      rw [scanRoots, ctxDone_none]
      dsimp only
      rw [if_neg (by simp), hrd]
      exact h2
    | some entries =>
      rw [hrd] at h
      dsimp only at h
      rcases hse : scanEntries faults none fs (cleanPath root) entries db
          ⟨st.polls + 1, st.ticks⟩ with ⟨db2, st2, err⟩
      rw [hse] at h
      cases err with
      | some err2 =>
        dsimp only at h
        have hdbeq : db2 = db' := congrArg (fun t => t.1) h
        have herr : some err2 = some (ScanErr.storage c) := congrArg (fun t => t.2.2) h
        have herr2 : err2 = .storage c := by
          injection herr
        rw [herr2, hdbeq] at hse
        obtain ⟨pre, e, suf, st3, h1, h2, h3⟩ :=
          scanEntries_storage_prefix faults fs (cleanPath root) entries db
            ⟨st.polls + 1, st.ticks⟩ db' st2 c hse
        exact ⟨[], root, rest, db, st, entries, pre, e, suf, st3, rfl, rfl, hrd, h1, h2, h3⟩
      | none =>
        dsimp only at h
        obtain ⟨rpre, root2, rsuf, db1, st1, entries2, pre, e, suf, st3,
          h1, h2, h3, h4, h5, h6⟩ := ih db2 st2 db' st' c h
        refine ⟨root :: rpre, root2, rsuf, db1, st1, entries2, pre, e, suf, st3,
          by rw [h1]; rfl, ?_, h3, h4, h5, h6⟩
        rw [scanRoots, ctxDone_none]
        dsimp only
        rw [if_neg (by simp), hrd]
        dsimp only
        rw [hse]
        exact h2

/-- C1: if any storage write (title upsert, chapter upsert, page upsert or
final rollup — an injected fault or the page-uniqueness constraint) fails
during a scan with no cancellation, then `Scan` returns the storage error
and the database it leaves behind is exactly the one produced by the fully
committed titles before the failing one: the library roots decompose into
fully processed roots, then the failing root, whose directory entries
decompose into fully processed titles (committed one transaction each)
followed by the failing title and the never-visited rest.  In particular
the failing title's transaction left no row behind (its rolled-back
transaction is absent from the committed prefix), and no later title or
root was processed. -/
theorem scan_storage_fault_atomic (faults : Nat → Bool) (fs : FS) (roots : List String)
    (db : DB) (db' : DB) (st' : ScanSt) (c : WriteFailure)
    (h : Scan faults none fs roots db = (db', st', some (.storage c))) :
    ∃ rpre root rsuf db1 st1 entries pre e suf st2,
      roots = rpre ++ root :: rsuf ∧
      scanRoots faults none fs rpre db ⟨0, 0⟩ = (db1, st1, none) ∧
      readDirM fs (cleanPath root) = some entries ∧
      entries = pre ++ e :: suf ∧ e.isDir = true ∧
      scanEntries faults none fs (cleanPath root) pre db1 ⟨st1.polls + 1, st1.ticks⟩ =
        (db', st2, none) := by
  rw [Scan] at h
  by_cases hr : roots = []
  · rw [if_pos hr] at h
    exact absurd (congrArg (fun t => t.2.2) h) (by simp)
  · rw [if_neg hr] at h
    exact scanRoots_storage_prefix faults fs roots db ⟨0, 0⟩ db' st' c h


set_option maxRecDepth 1000000 in
/-- Witness for C1 at a concrete input: a fault injected into the second
storage write (the chapter upsert) of a one-title library aborts the scan
with the storage error and leaves the database untouched. -/
theorem scan_storage_fault_atomic_witness :
    ∃ rpre root rsuf db1 st1 entries pre e suf st2,
      (["/lib"] : List String) = rpre ++ root :: rsuf ∧
      scanRoots (fun t => decide (t = 1)) none
        [⟨["lib"], true, 0, 0⟩, ⟨["lib", "T"], true, 0, 0⟩,
         ⟨["lib", "T", "Cha"], true, 0, 3⟩,
         ⟨["lib", "T", "Cha", "b.jpg"], false, 2, 2⟩] rpre ⟨[], [], [], []⟩ ⟨0, 0⟩ =
        (db1, st1, none) ∧
      readDirM
        [⟨["lib"], true, 0, 0⟩, ⟨["lib", "T"], true, 0, 0⟩,
         ⟨["lib", "T", "Cha"], true, 0, 3⟩,
         ⟨["lib", "T", "Cha", "b.jpg"], false, 2, 2⟩] (cleanPath root) = some entries ∧
      entries = pre ++ e :: suf ∧ e.isDir = true ∧
      scanEntries (fun t => decide (t = 1)) none
        [⟨["lib"], true, 0, 0⟩, ⟨["lib", "T"], true, 0, 0⟩,
         ⟨["lib", "T", "Cha"], true, 0, 3⟩,
         ⟨["lib", "T", "Cha", "b.jpg"], false, 2, 2⟩] (cleanPath root) pre db1
        ⟨st1.polls + 1, st1.ticks⟩ = (⟨[], [], [], []⟩, st2, none) :=
  scan_storage_fault_atomic (fun t => decide (t = 1))
    [⟨["lib"], true, 0, 0⟩, ⟨["lib", "T"], true, 0, 0⟩,
     ⟨["lib", "T", "Cha"], true, 0, 3⟩,
     ⟨["lib", "T", "Cha", "b.jpg"], false, 2, 2⟩]
    ["/lib"] ⟨[], [], [], []⟩ ⟨[], [], [], []⟩ ⟨6, 2⟩ .fault (by rfl)

/-! ### Relating the flat statement view to the scan orchestrator

With no injected faults and no cancellation context, the database results
of `Scan` and of its statement sequence coincide; the scan state is
existentially quantified since it does not influence any write. -/

theorem runFlat_append (a b : List Op) (db : DB) :
    runFlat (a ++ b) db =
      match runFlat a db with
      | .error e => .error e
      | .ok d => runFlat b d := by
  induction a generalizing db with
  | nil => rfl
  | cons o rest ih =>
    rw [List.cons_append, runFlat, runFlat]
    cases applyOp o db with
    | error e => rfl
    | ok d2 => exact ih d2

theorem collectChapter_bridge_none (fs : FS) (cp : String) (st : ScanSt)
    (h : collectChapterP fs cp = none) :
    ∃ st', collectChapter none fs cp st = .error st' := by
  rw [collectChapterP] at h
  rw [collectChapter]
  cases hw : walkFiles fs cp with
  | none => exact ⟨st, rfl⟩
  | some files =>
    rw [hw] at h
    dsimp only at h ⊢
    rw [collectPagesAux_none]
    dsimp only
    cases hf : findEntry fs (pathComps cp) with
    | none => exact ⟨_, rfl⟩
    | some e => rw [hf] at h; exact absurd h (by simp)

theorem collectChapter_bridge_some (fs : FS) (cp : String) (st : ScanSt)
    (r : ChapterMeta × List PageMeta) (h : collectChapterP fs cp = some r) :
    ∃ st', collectChapter none fs cp st = .ok (r, st') := by
  rw [collectChapterP] at h
  rw [collectChapter]
  cases hw : walkFiles fs cp with
  | none => rw [hw] at h; exact absurd h (by simp)
  | some files =>
    rw [hw] at h
    dsimp only at h ⊢
    rw [collectPagesAux_none]
    dsimp only
    cases hf : findEntry fs (pathComps cp) with
    | none => rw [hf] at h; exact absurd h (by simp)
    | some e =>
      rw [hf] at h
      dsimp only at h ⊢
      exact ⟨_, congrArg (fun x => Except.ok (x, (⟨st.polls + files.length, st.ticks⟩ : ScanSt)))
        (Option.some.inj h)⟩

theorem upsertPages_bridge (cid : String) (pages : List PageMeta) (tx : DB) (st : ScanSt) :
    match runFlat (pageOpsOf cid pages) tx with
    | .ok d => ∃ st', upsertPages noFaults none cid pages tx st = .ok (d, st')
    | .error _ => ∃ st', upsertPages noFaults none cid pages tx st =
        .error (.storage .constraint, st') := by
  induction pages generalizing tx st with
  | nil => exact ⟨st, rfl⟩
  | cons p rest ih =>
    rw [pageOpsOf, List.map_cons, runFlat, upsertPages]
    rw [execWrite_noFaults]
    dsimp only [applyOp]
    by_cases hc : pageConflict
        (pageWrite tx.page p.id cid p.index p.path p.mime p.size p.fileMTime)
        p.path cid p.index = true
    · rw [if_pos hc, if_pos hc]
      exact ⟨_, rfl⟩
    · rw [if_neg hc, if_neg hc]
      exact ih _ _

theorem titleAggFrom_count_le (fs : FS) (cps : List String) (c p : Nat) (m : Int) :
    c ≤ (titleAggFrom fs cps c p m).1 := by
  induction cps generalizing c p m with
  | nil => exact Nat.le_refl c
  | cons cp rest ih =>
    rw [titleAggFrom]
    cases hc : collectChapterP fs cp with
    | none => exact ih c p m
    | some r =>
      obtain ⟨meta, pages⟩ := r
      dsimp only
      by_cases hz : meta.pageCount = 0
      · rw [if_pos hz]; exact ih c p m
      · rw [if_neg hz]
        exact Nat.le_trans (Nat.le_succ c) (ih (c + 1) _ _)

theorem chapterOps_nil_of_count_eq (fs : FS) (mangaID : String) (cps : List String)
    (c p : Nat) (m : Int) (h : (titleAggFrom fs cps c p m).1 = c) :
    cps.flatMap (chapterOpsOf fs mangaID) = [] := by
  induction cps generalizing c p m with
  | nil => rfl
  | cons cp rest ih =>
    rw [titleAggFrom] at h
    rw [List.flatMap_cons]
    cases hc : collectChapterP fs cp with
    | none =>
      rw [hc] at h
      rw [chapterOpsOf, hc, List.nil_append]
      exact ih c p m h
    | some r =>
      obtain ⟨meta, pages⟩ := r
      rw [hc] at h
      dsimp only at h
      rw [chapterOpsOf, hc]
      dsimp only
      by_cases hz : meta.pageCount = 0
      · rw [if_pos hz] at h
        rw [if_pos hz, List.nil_append]
        exact ih c p m h
      · rw [if_neg hz] at h
        have := titleAggFrom_count_le fs rest (c + 1) (p + meta.pageCount)
          (if meta.mtime > m then meta.mtime else m)
        omega

theorem scanChapters_bridge (fs : FS) (mangaID : String) (cps : List String) (tx : DB)
    (st : ScanSt) (c p : Nat) (m : Int) :
    match runFlat (cps.flatMap (chapterOpsOf fs mangaID)) tx with
    | .ok d => ∃ st', scanChapters noFaults none fs mangaID cps tx st c p m =
        .ok (d, st', (titleAggFrom fs cps c p m).1, (titleAggFrom fs cps c p m).2.1,
          (titleAggFrom fs cps c p m).2.2)
    | .error _ => ∃ st', scanChapters noFaults none fs mangaID cps tx st c p m =
        .error (.storage .constraint, st') := by
  induction cps generalizing tx st c p m with
  | nil => exact ⟨st, rfl⟩
  | cons cp rest ih =>
    rw [List.flatMap_cons, scanChapters, titleAggFrom, chapterOpsOf]
    cases hc : collectChapterP fs cp with
    | none =>
      dsimp only
      rw [List.nil_append]
      obtain ⟨st1, hcc⟩ := collectChapter_bridge_none fs cp st hc
      rw [hcc]
      exact ih tx st1 c p m
    | some r =>
      obtain ⟨meta, pages⟩ := r
      obtain ⟨st1, hcc⟩ := collectChapter_bridge_some fs cp st (meta, pages) hc
      rw [hcc]
      dsimp only
      by_cases hz : meta.pageCount = 0
      · rw [if_pos hz, if_pos hz, if_pos hz, List.nil_append]
        exact ih tx st1 c p m
      · rw [if_neg hz, if_neg hz, if_neg hz, List.cons_append, runFlat]
        rw [execWrite_noFaults]
        dsimp only [applyOp]
        rw [runFlat_append]
        have hub := upsertPages_bridge (stableID "chapter" cp) pages
          { tx with chapter := (upsertChapterRows tx.chapter (stableID "chapter" cp) mangaID
            meta.title meta.number meta.path meta.pageCount meta.mtime) }
          ⟨st1.polls + 1, st1.ticks + 1⟩
        cases hpo : runFlat (pageOpsOf (stableID "chapter" cp) pages)
            { tx with chapter := (upsertChapterRows tx.chapter (stableID "chapter" cp) mangaID
              meta.title meta.number meta.path meta.pageCount meta.mtime) } with
        | error e =>
          rw [hpo] at hub
          obtain ⟨st3, hup⟩ := hub
          rw [hup]
          exact ⟨st3, rfl⟩
        | ok tx2 =>
          rw [hpo] at hub
          dsimp only at hub
          obtain ⟨st3, hup⟩ := hub
          rw [hup]
          exact ih tx2 st3 (c + 1) (p + meta.pageCount)
            (if meta.mtime > m then meta.mtime else m)

theorem processTitle_bridge (fs : FS) (mangaPath title : String) (db : DB) (st : ScanSt) :
    match runFlat (titleOpsOf fs mangaPath title) db with
    | .ok d => ∃ st', processTitle noFaults none fs mangaPath title db st = .ok (d, st')
    | .error _ => ∃ st', processTitle noFaults none fs mangaPath title db st =
        .error (.storage .constraint, st') := by
  rw [titleOpsOf, processTitle]
  cases hrd : readChapterDirsM fs mangaPath with
  | none => exact ⟨st, rfl⟩
  | some names =>
    dsimp only
    by_cases hne : names = []
    · rw [if_pos hne, if_pos hne]
      exact ⟨st, rfl⟩
    · rw [if_neg hne, if_neg hne, ctxDone_none]
      dsimp only
      rw [if_neg Bool.false_ne_true, execWrite_noFaults]
      dsimp only
      by_cases hagg : (titleAggFrom fs (names.map (joinPath mangaPath)) 0 0 0).1 = 0
      · rw [if_pos hagg]
        have hnil := chapterOps_nil_of_count_eq fs (stableID "manga" mangaPath)
          (names.map (joinPath mangaPath)) 0 0 0 hagg
        have hsc := scanChapters_bridge fs (stableID "manga" mangaPath)
          (names.map (joinPath mangaPath))
          { db with manga := (upsertMangaRows db.manga (stableID "manga" mangaPath) title
            mangaPath) }
          ⟨st.polls + 2, st.ticks + 1⟩ 0 0 0
        rw [hnil] at hsc
        dsimp only [runFlat] at hsc
        obtain ⟨st3, hsc⟩ := hsc
        rw [hsc]
        dsimp only
        rw [if_pos hagg]
        exact ⟨st3, rfl⟩
      · rw [if_neg hagg, runFlat]
        dsimp only [applyOp]
        rw [runFlat_append]
        have hsc := scanChapters_bridge fs (stableID "manga" mangaPath)
          (names.map (joinPath mangaPath))
          { db with manga := (upsertMangaRows db.manga (stableID "manga" mangaPath) title
            mangaPath) }
          ⟨st.polls + 2, st.ticks + 1⟩ 0 0 0
        cases hfl : runFlat ((names.map (joinPath mangaPath)).flatMap
            (chapterOpsOf fs (stableID "manga" mangaPath)))
            { db with manga := (upsertMangaRows db.manga (stableID "manga" mangaPath) title
              mangaPath) } with
        | error e =>
          rw [hfl] at hsc
          obtain ⟨st3, hsc⟩ := hsc
          rw [hsc]
          exact ⟨st3, rfl⟩
        | ok tx2 =>
          rw [hfl] at hsc
          dsimp only at hsc
          obtain ⟨st3, hsc⟩ := hsc
          rw [hsc]
          dsimp only
          rw [if_neg hagg, execWrite_noFaults]
          dsimp only
          rw [ctxDone_none]
          dsimp only
          rw [if_neg Bool.false_ne_true]
          dsimp only [runFlat, applyOp]
          exact ⟨_, rfl⟩

theorem scanEntries_bridge (fs : FS) (root : String) (entries : List FSEntry) (db : DB)
    (st : ScanSt) :
    match runFlat (entriesOpsOf fs root entries) db with
    | .ok d => ∃ st', scanEntries noFaults none fs root entries db st = (d, st', none)
    | .error _ => ∃ d2 st', scanEntries noFaults none fs root entries db st =
        (d2, st', some (.storage .constraint)) := by
  induction entries generalizing db st with
  | nil => exact ⟨st, rfl⟩
  | cons e rest ih =>
    rw [entriesOpsOf, List.flatMap_cons, scanEntries]
    by_cases hd : e.isDir = true
    · rw [if_pos hd, if_neg (not_not_intro hd), ctxDone_none]
      dsimp only
      rw [if_neg Bool.false_ne_true, runFlat_append]
      have hp := processTitle_bridge fs (joinPath root (entryName e)) (entryName e) db
        ⟨st.polls + 1, st.ticks⟩
      cases ht : runFlat (titleOpsOf fs (joinPath root (entryName e)) (entryName e)) db with
      | error e2 =>
        rw [ht] at hp
        obtain ⟨st2, hp⟩ := hp
        rw [hp]
        exact ⟨db, st2, rfl⟩
      | ok db2 =>
        rw [ht] at hp
        dsimp only at hp
        obtain ⟨st2, hp⟩ := hp
        rw [hp]
        exact ih db2 st2
    · rw [if_neg hd, if_pos hd, List.nil_append]
      exact ih db st

theorem scanRoots_bridge (fs : FS) (roots : List String) (db : DB) (st : ScanSt) :
    match runFlat (opsOf fs roots) db with
    | .ok d => ∃ st', scanRoots noFaults none fs roots db st = (d, st', none)
    | .error _ => ∃ d2 st', scanRoots noFaults none fs roots db st =
        (d2, st', some (.storage .constraint)) := by
  induction roots generalizing db st with
  | nil => exact ⟨st, rfl⟩
  | cons root rest ih =>
    rw [opsOf, List.flatMap_cons, scanRoots, ctxDone_none]
    dsimp only
    rw [if_neg Bool.false_ne_true]
    cases hrd : readDirM fs (cleanPath root) with
    | none =>
      dsimp only
      rw [List.nil_append]
      exact ih db ⟨st.polls + 1, st.ticks⟩
    | some entries =>
      dsimp only
      rw [runFlat_append]
      have he := scanEntries_bridge fs (cleanPath root) entries db ⟨st.polls + 1, st.ticks⟩
      cases hfe : runFlat (entriesOpsOf fs (cleanPath root) entries) db with
      | error e =>
        rw [hfe] at he
        obtain ⟨d2, st2, he⟩ := he
        rw [he]
        exact ⟨d2, st2, rfl⟩
      | ok db2 =>
        rw [hfe] at he
        dsimp only at he
        obtain ⟨st2, he⟩ := he
        rw [he]
        exact ih db2 st2

theorem scan_flat_bridge (fs : FS) (roots : List String) (db : DB) :
    match runFlat (opsOf fs roots) db with
    | .ok d => ∃ st', Scan noFaults none fs roots db = (d, st', none)
    | .error _ => ∃ d2 st', Scan noFaults none fs roots db =
        (d2, st', some (.storage .constraint)) := by
  rw [Scan]
  by_cases hr : roots = []
  · subst hr
    rw [if_pos rfl]
    exact ⟨⟨0, 0⟩, rfl⟩
  · rw [if_neg hr]
    exact scanRoots_bridge fs roots db ⟨0, 0⟩

/-! ### The flat statement sequence is idempotent

A second execution of a well-formed statement sequence over the database
the first execution produced rewrites every row to the value it already
has.  The lemmas establish, for each statement, that the rows its key
selects still carry exactly its values (each key is written by at most
one statement), and that the page uniqueness re-check still passes. -/

theorem map_self_of_fix {α : Type} (l : List α) (f : α → α) (h : ∀ x ∈ l, f x = x) :
    l.map f = l := by
  induction l with
  | nil => rfl
  | cons x xs ih =>
    rw [List.map_cons, h x (List.mem_cons_self x xs),
      ih (fun y hy => h y (List.mem_cons_of_mem x hy))]

theorem pageRow_update_self (r : PageRow) (cid : String) (idx : Nat) (mime : String)
    (size mtime : Int) (h : pageRowMatches cid idx mime size mtime r) :
    ({ r with chapter_id := cid, page_index := idx, mime := mime, width := none,
              height := none, size_bytes := size, file_mtime := some mtime } : PageRow) =
      r := by
  cases r
  obtain ⟨h1, h2, h3, h4, h5, h6, h7⟩ := h
  dsimp only at h1 h2 h3 h4 h5 h6 h7
  subst h1
  subst h2
  subst h3
  subst h4
  subst h5
  subst h6
  subst h7
  rfl

theorem chapterRow_update_self (r : ChapterRow) (title : String) (number : Option ℚ)
    (pageCount : Nat) (mtime : Int) (h : chapterRowMatches title number pageCount mtime r) :
    ({ r with title := title, number := number, page_count := pageCount,
              file_mtime := some mtime } : ChapterRow) = r := by
  cases r
  obtain ⟨h1, h2, h3, h4⟩ := h
  dsimp only at h1 h2 h3 h4
  subst h1
  subst h2
  subst h3
  subst h4
  rfl

theorem mangaRow_update_self (r : MangaRow) (title : String)
    (h : mangaRowMatches title r) :
    { r with title := title, title_sort := lowerStr title } = r := by
  cases r
  obtain ⟨h1, h2⟩ := h
  dsimp only at h1 h2
  subst h1
  subst h2
  rfl

theorem mangaRow_fin_update_self (r : MangaRow) (c p : Nat) (ls : Option Int)
    (h : finRowMatches c p ls r) :
    { r with chapter_count := c, page_count := p, last_scan_at := ls } = r := by
  cases r
  obtain ⟨h1, h2, h3⟩ := h
  dsimp only at h1 h2 h3
  subst h1
  subst h2
  subst h3
  rfl

theorem pageWrite_post (rows : List PageRow) (id cid : String) (idx : Nat)
    (path mime : String) (size mtime : Int) :
    (∃ r ∈ pageWrite rows id cid idx path mime size mtime, r.path = path) ∧
      ∀ r ∈ pageWrite rows id cid idx path mime size mtime, r.path = path →
        pageRowMatches cid idx mime size mtime r := by
  rw [pageWrite]
  by_cases hany : (rows.any fun r => r.path = path) = true
  · rw [if_pos hany]
    obtain ⟨r0, hr0, hp0⟩ := List.any_eq_true.mp hany
    replace hp0 : r0.path = path := of_decide_eq_true hp0
    constructor
    · refine ⟨_, List.mem_map_of_mem _ hr0, ?_⟩
      rw [if_pos hp0]
      exact hp0
    · intro r hr hpath
      obtain ⟨r1, hr1, heq⟩ := List.mem_map.mp hr
      by_cases h1 : r1.path = path
      · rw [if_pos h1] at heq
        rw [← heq]
        exact ⟨rfl, rfl, rfl, rfl, rfl, rfl, rfl⟩
      · rw [if_neg h1] at heq
        rw [← heq] at hpath
        exact absurd hpath h1
  · rw [if_neg hany]
    constructor
    · exact ⟨_, List.mem_append_right rows (List.mem_singleton_self _), rfl⟩
    · intro r hr hpath
      rcases List.mem_append.mp hr with hl | hr2
      · exact absurd (List.any_eq_true.mpr ⟨r, hl, decide_eq_true hpath⟩) hany
      · rw [List.mem_singleton.mp hr2]
        exact ⟨rfl, rfl, rfl, rfl, rfl, rfl, rfl⟩

theorem chapterUpsert_post (rows : List ChapterRow) (id mangaId title : String)
    (number : Option ℚ) (path : String) (pageCount : Nat) (mtime : Int) :
    (∃ r ∈ upsertChapterRows rows id mangaId title number path pageCount mtime,
        r.path = path) ∧
      ∀ r ∈ upsertChapterRows rows id mangaId title number path pageCount mtime,
        r.path = path → chapterRowMatches title number pageCount mtime r := by
  rw [upsertChapterRows]
  by_cases hany : (rows.any fun r => r.path = path) = true
  · rw [if_pos hany]
    obtain ⟨r0, hr0, hp0⟩ := List.any_eq_true.mp hany
    replace hp0 : r0.path = path := of_decide_eq_true hp0
    constructor
    · refine ⟨_, List.mem_map_of_mem _ hr0, ?_⟩
      rw [if_pos hp0]
      exact hp0
    · intro r hr hpath
      obtain ⟨r1, hr1, heq⟩ := List.mem_map.mp hr
      by_cases h1 : r1.path = path
      · rw [if_pos h1] at heq
        rw [← heq]
        exact ⟨rfl, rfl, rfl, rfl⟩
      · rw [if_neg h1] at heq
        rw [← heq] at hpath
        exact absurd hpath h1
  · rw [if_neg hany]
    constructor
    · exact ⟨_, List.mem_append_right rows (List.mem_singleton_self _), rfl⟩
    · intro r hr hpath
      rcases List.mem_append.mp hr with hl | hr2
      · exact absurd (List.any_eq_true.mpr ⟨r, hl, decide_eq_true hpath⟩) hany
      · rw [List.mem_singleton.mp hr2]
        exact ⟨rfl, rfl, rfl, rfl⟩

theorem mangaUpsert_post (rows : List MangaRow) (id title path : String) :
    (∃ r ∈ upsertMangaRows rows id title path, r.path = path) ∧
      ∀ r ∈ upsertMangaRows rows id title path, r.path = path →
        mangaRowMatches title r := by
  rw [upsertMangaRows]
  by_cases hany : (rows.any fun r => r.path = path) = true
  · rw [if_pos hany]
    obtain ⟨r0, hr0, hp0⟩ := List.any_eq_true.mp hany
    replace hp0 : r0.path = path := of_decide_eq_true hp0
    constructor
    · refine ⟨_, List.mem_map_of_mem _ hr0, ?_⟩
      rw [if_pos hp0]
      exact hp0
    · intro r hr hpath
      obtain ⟨r1, hr1, heq⟩ := List.mem_map.mp hr
      by_cases h1 : r1.path = path
      · rw [if_pos h1] at heq
        rw [← heq]
        exact ⟨rfl, rfl⟩
      · rw [if_neg h1] at heq
        rw [← heq] at hpath
        exact absurd hpath h1
  · rw [if_neg hany]
    constructor
    · exact ⟨_, List.mem_append_right rows (List.mem_singleton_self _), rfl⟩
    · intro r hr hpath
      rcases List.mem_append.mp hr with hl | hr2
      · exact absurd (List.any_eq_true.mpr ⟨r, hl, decide_eq_true hpath⟩) hany
      · rw [List.mem_singleton.mp hr2]
        exact ⟨rfl, rfl⟩

theorem finalize_post (rows : List MangaRow) (mid : String) (c p : Nat)
    (ls : Option Int) :
    ∀ r ∈ finalizeRows rows mid c p ls, r.id = mid → finRowMatches c p ls r := by
  intro r hr hid
  rw [finalizeRows] at hr
  obtain ⟨r1, hr1, heq⟩ := List.mem_map.mp hr
  by_cases h1 : r1.id = mid
  · rw [if_pos h1] at heq
    rw [← heq]
    exact ⟨rfl, rfl, rfl⟩
  · rw [if_neg h1] at heq
    rw [← heq] at hid
    exact absurd hid h1

theorem pageWrite_id (rows : List PageRow) (id cid : String) (idx : Nat)
    (path mime : String) (size mtime : Int)
    (hex : ∃ r ∈ rows, r.path = path)
    (hall : ∀ r ∈ rows, r.path = path → pageRowMatches cid idx mime size mtime r) :
    pageWrite rows id cid idx path mime size mtime = rows := by
  obtain ⟨r0, hr0, hp0⟩ := hex
  rw [pageWrite, if_pos (List.any_eq_true.mpr ⟨r0, hr0, decide_eq_true hp0⟩)]
  refine map_self_of_fix _ _ (fun r hr => ?_)
  by_cases h1 : r.path = path
  · rw [if_pos h1]
    exact pageRow_update_self r cid idx mime size mtime (hall r hr h1)
  · rw [if_neg h1]

theorem chapterUpsert_id (rows : List ChapterRow) (id mangaId title : String)
    (number : Option ℚ) (path : String) (pageCount : Nat) (mtime : Int)
    (hex : ∃ r ∈ rows, r.path = path)
    (hall : ∀ r ∈ rows, r.path = path → chapterRowMatches title number pageCount mtime r) :
    upsertChapterRows rows id mangaId title number path pageCount mtime = rows := by
  obtain ⟨r0, hr0, hp0⟩ := hex
  rw [upsertChapterRows, if_pos (List.any_eq_true.mpr ⟨r0, hr0, decide_eq_true hp0⟩)]
  refine map_self_of_fix _ _ (fun r hr => ?_)
  by_cases h1 : r.path = path
  · rw [if_pos h1]
    exact chapterRow_update_self r title number pageCount mtime (hall r hr h1)
  · rw [if_neg h1]

theorem mangaUpsert_id (rows : List MangaRow) (id title path : String)
    (hex : ∃ r ∈ rows, r.path = path)
    (hall : ∀ r ∈ rows, r.path = path → mangaRowMatches title r) :
    upsertMangaRows rows id title path = rows := by
  obtain ⟨r0, hr0, hp0⟩ := hex
  rw [upsertMangaRows, if_pos (List.any_eq_true.mpr ⟨r0, hr0, decide_eq_true hp0⟩)]
  refine map_self_of_fix _ _ (fun r hr => ?_)
  by_cases h1 : r.path = path
  · rw [if_pos h1]
    exact mangaRow_update_self r title (hall r hr h1)
  · rw [if_neg h1]

theorem finalize_id (rows : List MangaRow) (mid : String) (c p : Nat) (ls : Option Int)
    (hall : ∀ r ∈ rows, r.id = mid → finRowMatches c p ls r) :
    finalizeRows rows mid c p ls = rows := by
  rw [finalizeRows]
  refine map_self_of_fix _ _ (fun r hr => ?_)
  by_cases h1 : r.id = mid
  · rw [if_pos h1]
    exact mangaRow_fin_update_self r c p ls (hall r hr h1)
  · rw [if_neg h1]

theorem applyOp_pageUp_inv (id cid : String) (idx : Nat) (path mime : String)
    (size mtime : Int) (dA dA2 : DB)
    (happ : applyOp (.pageUp id cid idx path mime size mtime) dA = .ok dA2) :
    pageConflict (pageWrite dA.page id cid idx path mime size mtime) path cid idx = false ∧
      dA2 = { dA with page := pageWrite dA.page id cid idx path mime size mtime } := by
  dsimp only [applyOp] at happ
  by_cases hc : pageConflict (pageWrite dA.page id cid idx path mime size mtime) path cid
      idx = true
  · rw [if_pos hc] at happ
    exact absurd happ (by simp)
  · rw [if_neg hc] at happ
    refine ⟨?_, (Except.ok.inj happ).symm⟩
    cases hcv : pageConflict (pageWrite dA.page id cid idx path mime size mtime) path cid
        idx with
    | false => rfl
    | true => exact absurd hcv hc

theorem upsert_frame {α : Type} (rows : List α) (keyOf : α → String) (pathW path : String)
    (upd : α → α) (new : α)
    (hupd : ∀ r, keyOf (upd r) = keyOf r) (hnew : keyOf new = pathW) (hne : pathW ≠ path) :
    (∀ r ∈ rows, keyOf r = path →
        r ∈ (if rows.any (fun r => keyOf r = pathW) then
              rows.map (fun r => if keyOf r = pathW then upd r else r)
            else rows ++ [new])) ∧
      (∀ r ∈ (if rows.any (fun r => keyOf r = pathW) then
              rows.map (fun r => if keyOf r = pathW then upd r else r)
            else rows ++ [new]),
        keyOf r = path → r ∈ rows) := by
  by_cases hany : (rows.any fun r => keyOf r = pathW) = true
  · rw [if_pos hany]
    constructor
    · intro r hr hp
      exact List.mem_map.mpr ⟨r, hr, if_neg (fun hc => hne (hc.symm.trans hp))⟩
    · intro r hr hp
      obtain ⟨r1, hr1, heq⟩ := List.mem_map.mp hr
      by_cases h1 : keyOf r1 = pathW
      · rw [if_pos h1] at heq
        rw [← heq, hupd r1] at hp
        exact absurd (h1.symm.trans hp) hne
      · rw [if_neg h1] at heq
        exact heq ▸ hr1
  · rw [if_neg hany]
    constructor
    · intro r hr _
      exact List.mem_append_left _ hr
    · intro r hr hp
      rcases List.mem_append.mp hr with h | h
      · exact h
      · rw [List.mem_singleton.mp h, hnew] at hp
        exact absurd hp hne

theorem applyOp_page_frame (o : Op) (t t1 : DB) (path : String)
    (happ : applyOp o t = .ok t1) (hno : o.pagePathOf ≠ some path) :
    (∀ r ∈ t.page, r.path = path → r ∈ t1.page) ∧
      (∀ r ∈ t1.page, r.path = path → r ∈ t.page) := by
  cases o with
  | mangaUp id2 title2 path2 =>
    dsimp only [applyOp] at happ
    rw [← Except.ok.inj happ]
    exact ⟨fun r hr _ => hr, fun r hr _ => hr⟩
  | chapterUp id2 mid2 title2 num2 path2 pc2 mt2 =>
    dsimp only [applyOp] at happ
    rw [← Except.ok.inj happ]
    exact ⟨fun r hr _ => hr, fun r hr _ => hr⟩
  | finalize mid2 c2 p2 ls2 =>
    dsimp only [applyOp] at happ
    rw [← Except.ok.inj happ]
    exact ⟨fun r hr _ => hr, fun r hr _ => hr⟩
  | pageUp id2 cid2 idx2 path2 mime2 size2 mtime2 =>
    obtain ⟨hconf, h2⟩ := applyOp_pageUp_inv id2 cid2 idx2 path2 mime2 size2 mtime2 t t1 happ
    have hne : path2 ≠ path := fun he => hno (congrArg Option.some he)
    rw [h2]
    exact upsert_frame t.page PageRow.path path2 path _ _ (fun r => rfl) rfl hne

theorem applyOp_chapter_frame (o : Op) (t t1 : DB) (path : String)
    (happ : applyOp o t = .ok t1) (hno : o.chapterPathOf ≠ some path) :
    (∀ r ∈ t.chapter, r.path = path → r ∈ t1.chapter) ∧
      (∀ r ∈ t1.chapter, r.path = path → r ∈ t.chapter) := by
  cases o with
  | mangaUp id2 title2 path2 =>
    dsimp only [applyOp] at happ
    rw [← Except.ok.inj happ]
    exact ⟨fun r hr _ => hr, fun r hr _ => hr⟩
  | finalize mid2 c2 p2 ls2 =>
    dsimp only [applyOp] at happ
    rw [← Except.ok.inj happ]
    exact ⟨fun r hr _ => hr, fun r hr _ => hr⟩
  | pageUp id2 cid2 idx2 path2 mime2 size2 mtime2 =>
    obtain ⟨hconf, h2⟩ := applyOp_pageUp_inv id2 cid2 idx2 path2 mime2 size2 mtime2 t t1 happ
    rw [h2]
    exact ⟨fun r hr _ => hr, fun r hr _ => hr⟩
  | chapterUp id2 mid2 title2 num2 path2 pc2 mt2 =>
    dsimp only [applyOp] at happ
    have hne : path2 ≠ path := fun he => hno (congrArg Option.some he)
    rw [← Except.ok.inj happ]
    exact upsert_frame t.chapter ChapterRow.path path2 path _ _ (fun r => rfl) rfl hne

theorem applyOp_manga_title (o : Op) (t t1 : DB) (path title : String)
    (happ : applyOp o t = .ok t1) (hno : o.mangaPathOf ≠ some path)
    (hex : ∃ r ∈ t.manga, r.path = path)
    (hall : ∀ r ∈ t.manga, r.path = path → mangaRowMatches title r) :
    (∃ r ∈ t1.manga, r.path = path) ∧
      ∀ r ∈ t1.manga, r.path = path → mangaRowMatches title r := by
  cases o with
  | chapterUp id2 mid2 title2 num2 path2 pc2 mt2 =>
    dsimp only [applyOp] at happ
    rw [← Except.ok.inj happ]
    exact ⟨hex, hall⟩
  | pageUp id2 cid2 idx2 path2 mime2 size2 mtime2 =>
    obtain ⟨hconf, h2⟩ := applyOp_pageUp_inv id2 cid2 idx2 path2 mime2 size2 mtime2 t t1 happ
    rw [h2]
    exact ⟨hex, hall⟩
  | mangaUp id2 title2 path2 =>
    dsimp only [applyOp] at happ
    have hne : path2 ≠ path := fun he => hno (congrArg Option.some he)
    rw [← Except.ok.inj happ]
    have hfr := upsert_frame t.manga MangaRow.path path2 path
      (fun r => { r with title := title2, title_sort := lowerStr title2 })
      { id := id2, title := title2, title_sort := lowerStr title2, path := path2,
        cover_page_id := none, chapter_count := 0, page_count := 0, last_scan_at := none }
      (fun r => rfl) rfl hne
    obtain ⟨r0, hr0, hp0⟩ := hex
    exact ⟨⟨r0, hfr.1 r0 hr0 hp0, hp0⟩, fun r hr hp => hall r (hfr.2 r hr hp) hp⟩
  | finalize mid2 c2 p2 ls2 =>
    dsimp only [applyOp] at happ
    rw [← Except.ok.inj happ]
    dsimp only
    constructor
    · obtain ⟨r0, hr0, hp0⟩ := hex
      refine ⟨_, List.mem_map_of_mem _ hr0, ?_⟩
      by_cases h1 : r0.id = mid2
      · rw [if_pos h1]
        exact hp0
      · rw [if_neg h1]
        exact hp0
    · intro r hr hp
      obtain ⟨r1, hr1, heq⟩ := List.mem_map.mp hr
      by_cases h1 : r1.id = mid2
      · rw [if_pos h1] at heq
        rw [← heq] at hp ⊢
        exact hall r1 hr1 hp
      · rw [if_neg h1] at heq
        rw [← heq] at hp ⊢
        exact hall r1 hr1 hp

theorem applyOp_manga_fin (o : Op) (t t1 : DB) (mid : String) (c p : Nat) (ls : Option Int)
    (happ : applyOp o t = .ok t1) (hnofin : o.finIdOf ≠ some mid)
    (hnoman : o.mangaIdOf ≠ some mid)
    (hall : ∀ r ∈ t.manga, r.id = mid → finRowMatches c p ls r) :
    ∀ r ∈ t1.manga, r.id = mid → finRowMatches c p ls r := by
  cases o with
  | chapterUp id2 mid2 title2 num2 path2 pc2 mt2 =>
    dsimp only [applyOp] at happ
    rw [← Except.ok.inj happ]
    exact hall
  | pageUp id2 cid2 idx2 path2 mime2 size2 mtime2 =>
    obtain ⟨hconf, h2⟩ := applyOp_pageUp_inv id2 cid2 idx2 path2 mime2 size2 mtime2 t t1 happ
    rw [h2]
    exact hall
  | mangaUp id2 title2 path2 =>
    dsimp only [applyOp] at happ
    have hne : id2 ≠ mid := fun he => hnoman (congrArg Option.some he)
    rw [← Except.ok.inj happ]
    dsimp only [upsertMangaRows]
    by_cases hany : (t.manga.any fun r => r.path = path2) = true
    · rw [if_pos hany]
      intro r hr hid
      obtain ⟨r1, hr1, heq⟩ := List.mem_map.mp hr
      by_cases h1 : r1.path = path2
      · rw [if_pos h1] at heq
        rw [← heq] at hid ⊢
        exact hall r1 hr1 hid
      · rw [if_neg h1] at heq
        rw [← heq] at hid ⊢
        exact hall r1 hr1 hid
    · rw [if_neg hany]
      intro r hr hid
      rcases List.mem_append.mp hr with h | h
      · exact hall r h hid
      · rw [List.mem_singleton.mp h] at hid
        exact absurd hid hne
  | finalize mid2 c2 p2 ls2 =>
    dsimp only [applyOp] at happ
    have hne : mid2 ≠ mid := fun he => hnofin (congrArg Option.some he)
    rw [← Except.ok.inj happ]
    dsimp only [finalizeRows]
    intro r hr hid
    obtain ⟨r1, hr1, heq⟩ := List.mem_map.mp hr
    by_cases h1 : r1.id = mid2
    · rw [if_pos h1] at heq
      rw [← heq] at hid
      dsimp only at hid
      exact absurd (h1.symm.trans hid) hne
    · rw [if_neg h1] at heq
      rw [← heq] at hid ⊢
      exact hall r1 hr1 hid

theorem runFlat_page_frame (B : List Op) (t2 : DB) (path : String) :
    ∀ t : DB, runFlat B t = .ok t2 → (∀ o ∈ B, o.pagePathOf ≠ some path) →
    (∀ r ∈ t.page, r.path = path → r ∈ t2.page) ∧
      (∀ r ∈ t2.page, r.path = path → r ∈ t.page) := by
  induction B with
  | nil =>
    intro t hrun hno
    rw [runFlat] at hrun
    rw [← Except.ok.inj hrun]
    exact ⟨fun r hr _ => hr, fun r hr _ => hr⟩
  | cons o rest ih =>
    intro t hrun hno
    rw [runFlat] at hrun
    cases happ : applyOp o t with
    | error e =>
      rw [happ] at hrun
      exact absurd hrun (by simp)
    | ok tmid =>
      rw [happ] at hrun
      have hstep := applyOp_page_frame o t tmid path happ (hno o (List.mem_cons_self o rest))
      have hrest := ih tmid hrun (fun o2 h2 => hno o2 (List.mem_cons_of_mem o h2))
      exact ⟨fun r hr hp => hrest.1 r (hstep.1 r hr hp) hp,
        fun r hr hp => hstep.2 r (hrest.2 r hr hp) hp⟩

theorem runFlat_chapter_frame (B : List Op) (t2 : DB) (path : String) :
    ∀ t : DB, runFlat B t = .ok t2 → (∀ o ∈ B, o.chapterPathOf ≠ some path) →
    (∀ r ∈ t.chapter, r.path = path → r ∈ t2.chapter) ∧
      (∀ r ∈ t2.chapter, r.path = path → r ∈ t.chapter) := by
  induction B with
  | nil =>
    intro t hrun hno
    rw [runFlat] at hrun
    rw [← Except.ok.inj hrun]
    exact ⟨fun r hr _ => hr, fun r hr _ => hr⟩
  | cons o rest ih =>
    intro t hrun hno
    rw [runFlat] at hrun
    cases happ : applyOp o t with
    | error e =>
      rw [happ] at hrun
      exact absurd hrun (by simp)
    | ok tmid =>
      rw [happ] at hrun
      have hstep := applyOp_chapter_frame o t tmid path happ
        (hno o (List.mem_cons_self o rest))
      have hrest := ih tmid hrun (fun o2 h2 => hno o2 (List.mem_cons_of_mem o h2))
      exact ⟨fun r hr hp => hrest.1 r (hstep.1 r hr hp) hp,
        fun r hr hp => hstep.2 r (hrest.2 r hr hp) hp⟩

theorem runFlat_manga_title (B : List Op) (t2 : DB) (path title : String) :
    ∀ t : DB, runFlat B t = .ok t2 → (∀ o ∈ B, o.mangaPathOf ≠ some path) →
    (∃ r ∈ t.manga, r.path = path) →
    (∀ r ∈ t.manga, r.path = path → mangaRowMatches title r) →
    (∃ r ∈ t2.manga, r.path = path) ∧
      ∀ r ∈ t2.manga, r.path = path → mangaRowMatches title r := by
  induction B with
  | nil =>
    intro t hrun hno hex hall
    rw [runFlat] at hrun
    rw [← Except.ok.inj hrun]
    exact ⟨hex, hall⟩
  | cons o rest ih =>
    intro t hrun hno hex hall
    rw [runFlat] at hrun
    cases happ : applyOp o t with
    | error e =>
      rw [happ] at hrun
      exact absurd hrun (by simp)
    | ok tmid =>
      rw [happ] at hrun
      have hstep := applyOp_manga_title o t tmid path title happ
        (hno o (List.mem_cons_self o rest)) hex hall
      exact ih tmid hrun (fun o2 h2 => hno o2 (List.mem_cons_of_mem o h2)) hstep.1 hstep.2

theorem runFlat_manga_fin (B : List Op) (t2 : DB) (mid : String) (c p : Nat)
    (ls : Option Int) :
    ∀ t : DB, runFlat B t = .ok t2 → (∀ o ∈ B, o.finIdOf ≠ some mid) →
    (∀ o ∈ B, o.mangaIdOf ≠ some mid) →
    (∀ r ∈ t.manga, r.id = mid → finRowMatches c p ls r) →
    ∀ r ∈ t2.manga, r.id = mid → finRowMatches c p ls r := by
  induction B with
  | nil =>
    intro t hrun hno1 hno2 hall
    rw [runFlat] at hrun
    rw [← Except.ok.inj hrun]
    exact hall
  | cons o rest ih =>
    intro t hrun hno1 hno2 hall
    rw [runFlat] at hrun
    cases happ : applyOp o t with
    | error e =>
      rw [happ] at hrun
      exact absurd hrun (by simp)
    | ok tmid =>
      rw [happ] at hrun
      have hstep := applyOp_manga_fin o t tmid mid c p ls happ
        (hno1 o (List.mem_cons_self o rest)) (hno2 o (List.mem_cons_self o rest)) hall
      exact ih tmid hrun (fun o2 h2 => hno1 o2 (List.mem_cons_of_mem o h2))
        (fun o2 h2 => hno2 o2 (List.mem_cons_of_mem o h2)) hstep

theorem runFlat_split (A : List Op) (o : Op) (B : List Op) (db d1 : DB)
    (hrun : runFlat (A ++ o :: B) db = .ok d1) :
    ∃ dA dA2, runFlat A db = .ok dA ∧ applyOp o dA = .ok dA2 ∧ runFlat B dA2 = .ok d1 := by
  rw [runFlat_append] at hrun
  cases hA : runFlat A db with
  | error e =>
    rw [hA] at hrun
    exact absurd hrun (by simp)
  | ok dA =>
    rw [hA] at hrun
    dsimp only at hrun
    rw [runFlat] at hrun
    cases happ : applyOp o dA with
    | error e =>
      rw [happ] at hrun
      exact absurd hrun (by simp)
    | ok dA2 =>
      rw [happ] at hrun
      exact ⟨dA, dA2, rfl, happ, hrun⟩

theorem filterMap_no_later (f : Op → Option String) (x : String) (A : List Op) (o : Op)
    (B : List Op) (hnd : ((A ++ o :: B).filterMap f).Nodup) (hx : f o = some x) :
    ∀ o2 ∈ B, f o2 ≠ some x := by
  intro o2 h2 hfo2
  rw [List.filterMap_append, List.filterMap_cons, hx] at hnd
  have hxB : x ∈ B.filterMap f := List.mem_filterMap.mpr ⟨o2, h2, hfo2⟩
  have hr := hnd.of_append_right
  exact (List.nodup_cons.mp hr).1 hxB

theorem pairwise_no_later {R : Op → Op → Prop} (A : List Op) (o : Op) (B : List Op)
    (hpw : List.Pairwise R (A ++ o :: B)) : ∀ o2 ∈ B, R o o2 := by
  have h2 := (List.pairwise_append.mp hpw).2.1
  exact fun o2 ho2 => (List.pairwise_cons.mp h2).1 o2 ho2

theorem page_provenance (ops : List Op) (d1 : DB) :
    ∀ db : DB, runFlat ops db = .ok d1 →
    ∀ r ∈ d1.page,
      (∃ o ∈ ops, ∃ id2 mime2 size2 mtime2,
          o = Op.pageUp id2 r.chapter_id r.page_index r.path mime2 size2 mtime2) ∨
      (r ∈ db.page ∧ ∀ o ∈ ops, o.pagePathOf ≠ some r.path) := by
  induction ops with
  | nil =>
    intro db hrun r hr
    rw [runFlat] at hrun
    rw [← Except.ok.inj hrun] at hr
    exact Or.inr ⟨hr, fun o ho => absurd ho (List.not_mem_nil o)⟩
  | cons o rest ih =>
    intro db hrun r hr
    rw [runFlat] at hrun
    cases happ : applyOp o db with
    | error e =>
      rw [happ] at hrun
      exact absurd hrun (by simp)
    | ok dmid =>
      rw [happ] at hrun
      rcases ih dmid hrun r hr with ⟨o2, ho2, hw⟩ | ⟨hmem, hno⟩
      · exact Or.inl ⟨o2, List.mem_cons_of_mem o ho2, hw⟩
      · cases o with
        | mangaUp id2 title2 path2 =>
          dsimp only [applyOp] at happ
          rw [← Except.ok.inj happ] at hmem
          refine Or.inr ⟨hmem, fun o2 ho2 => ?_⟩
          rcases List.mem_cons.mp ho2 with h | h
          · subst h
            exact fun hc => Option.noConfusion hc
          · exact hno o2 h
        | chapterUp id2 mid2 title2 num2 path2 pc2 mt2 =>
          dsimp only [applyOp] at happ
          rw [← Except.ok.inj happ] at hmem
          refine Or.inr ⟨hmem, fun o2 ho2 => ?_⟩
          rcases List.mem_cons.mp ho2 with h | h
          · subst h
            exact fun hc => Option.noConfusion hc
          · exact hno o2 h
        | finalize mid2 c2 p2 ls2 =>
          dsimp only [applyOp] at happ
          rw [← Except.ok.inj happ] at hmem
          refine Or.inr ⟨hmem, fun o2 ho2 => ?_⟩
          rcases List.mem_cons.mp ho2 with h | h
          · subst h
            exact fun hc => Option.noConfusion hc
          · exact hno o2 h
        | pageUp id2 cid2 idx2 path2 mime2 size2 mtime2 =>
          obtain ⟨hconf, h2⟩ :=
            applyOp_pageUp_inv id2 cid2 idx2 path2 mime2 size2 mtime2 db dmid happ
          rw [h2] at hmem
          dsimp only at hmem
          rw [pageWrite] at hmem
          by_cases hany : (db.page.any fun r => r.path = path2) = true
          · rw [if_pos hany] at hmem
            obtain ⟨r1, hr1, heq⟩ := List.mem_map.mp hmem
            by_cases h1 : r1.path = path2
            · rw [if_pos h1] at heq
              refine Or.inl ⟨.pageUp id2 cid2 idx2 path2 mime2 size2 mtime2,
                List.mem_cons_self _ _, id2, mime2, size2, mtime2, ?_⟩
              rw [← heq]
              dsimp only
              rw [h1]
            · rw [if_neg h1] at heq
              refine Or.inr ⟨heq ▸ hr1, fun o2 ho2 => ?_⟩
              rcases List.mem_cons.mp ho2 with h | h
              · subst h
                intro hc
                have hpp : path2 = r.path := Option.some.inj hc
                rw [← heq] at hpp
                exact h1 hpp.symm
              · exact hno o2 h
          · rw [if_neg hany] at hmem
            rcases List.mem_append.mp hmem with h | h
            · have hrp : r.path ≠ path2 := fun hc =>
                hany (List.any_eq_true.mpr ⟨r, h, decide_eq_true hc⟩)
              refine Or.inr ⟨h, fun o2 ho2 => ?_⟩
              rcases List.mem_cons.mp ho2 with h3 | h3
              · subst h3
                exact fun hc => hrp (Option.some.inj hc).symm
              · exact hno o2 h3
            · rw [List.mem_singleton.mp h]
              exact Or.inl ⟨.pageUp id2 cid2 idx2 path2 mime2 size2 mtime2,
                List.mem_cons_self _ _, id2, mime2, size2, mtime2, rfl⟩

theorem last_page_write (A B : List Op) (id cid : String) (idx : Nat) (path mime : String)
    (size mtime : Int) (db d1 : DB)
    (hrun : runFlat (A ++ Op.pageUp id cid idx path mime size mtime :: B) db = .ok d1)
    (hno : ∀ o2 ∈ B, o2.pagePathOf ≠ some path) :
    (∃ r ∈ d1.page, r.path = path) ∧
      ∀ r ∈ d1.page, r.path = path → pageRowMatches cid idx mime size mtime r := by
  obtain ⟨dA, dA2, hA, happ, hB⟩ := runFlat_split A _ B db d1 hrun
  obtain ⟨hconf, h2⟩ := applyOp_pageUp_inv id cid idx path mime size mtime dA dA2 happ
  have hpost := pageWrite_post dA.page id cid idx path mime size mtime
  have hframe := runFlat_page_frame B d1 path dA2 hB hno
  rw [h2] at hframe
  constructor
  · obtain ⟨r0, hr0, hp0⟩ := hpost.1
    exact ⟨r0, hframe.1 r0 hr0 hp0, hp0⟩
  · intro r hr hp
    exact hpost.2 r (hframe.2 r hr hp) hp

theorem last_chapter_write (A B : List Op) (id mangaId title : String) (number : Option ℚ)
    (path : String) (pageCount : Nat) (mtime : Int) (db d1 : DB)
    (hrun : runFlat (A ++ Op.chapterUp id mangaId title number path pageCount mtime :: B) db
      = .ok d1)
    (hno : ∀ o2 ∈ B, o2.chapterPathOf ≠ some path) :
    (∃ r ∈ d1.chapter, r.path = path) ∧
      ∀ r ∈ d1.chapter, r.path = path →
        chapterRowMatches title number pageCount mtime r := by
  obtain ⟨dA, dA2, hA, happ, hB⟩ := runFlat_split A _ B db d1 hrun
  dsimp only [applyOp] at happ
  rw [← Except.ok.inj happ] at hB
  have hpost := chapterUpsert_post dA.chapter id mangaId title number path pageCount mtime
  have hframe := runFlat_chapter_frame B d1 path _ hB hno
  constructor
  · obtain ⟨r0, hr0, hp0⟩ := hpost.1
    exact ⟨r0, hframe.1 r0 hr0 hp0, hp0⟩
  · intro r hr hp
    exact hpost.2 r (hframe.2 r hr hp) hp

theorem last_manga_write (A B : List Op) (id title path : String) (db d1 : DB)
    (hrun : runFlat (A ++ Op.mangaUp id title path :: B) db = .ok d1)
    (hno : ∀ o2 ∈ B, o2.mangaPathOf ≠ some path) :
    (∃ r ∈ d1.manga, r.path = path) ∧
      ∀ r ∈ d1.manga, r.path = path → mangaRowMatches title r := by
  obtain ⟨dA, dA2, hA, happ, hB⟩ := runFlat_split A _ B db d1 hrun
  dsimp only [applyOp] at happ
  rw [← Except.ok.inj happ] at hB
  have hpost := mangaUpsert_post dA.manga id title path
  exact runFlat_manga_title B d1 path title _ hB hno hpost.1 hpost.2

theorem last_finalize (A B : List Op) (mid : String) (c p : Nat) (ls : Option Int)
    (db d1 : DB)
    (hrun : runFlat (A ++ Op.finalize mid c p ls :: B) db = .ok d1)
    (hno1 : ∀ o2 ∈ B, o2.finIdOf ≠ some mid)
    (hno2 : ∀ o2 ∈ B, o2.mangaIdOf ≠ some mid) :
    ∀ r ∈ d1.manga, r.id = mid → finRowMatches c p ls r := by
  obtain ⟨dA, dA2, hA, happ, hB⟩ := runFlat_split A _ B db d1 hrun
  dsimp only [applyOp] at happ
  rw [← Except.ok.inj happ] at hB
  exact runFlat_manga_fin B d1 mid c p ls _ hB hno1 hno2 (finalize_post dA.manga mid c p ls)

theorem second_run_no_conflict (A B : List Op) (id cid : String) (idx : Nat)
    (path mime : String) (size mtime : Int) (db d1 : DB)
    (hrun : runFlat (A ++ Op.pageUp id cid idx path mime size mtime :: B) db = .ok d1)
    (hcompat : ∀ o1 ∈ A ++ Op.pageUp id cid idx path mime size mtime :: B,
      ∀ o2 ∈ A ++ Op.pageUp id cid idx path mime size mtime :: B, pageCompat o1 o2 = true) :
    pageConflict d1.page path cid idx = false := by
  by_cases hc : pageConflict d1.page path cid idx = true
  case neg =>
    cases hcv : pageConflict d1.page path cid idx with
    | false => rfl
    | true => exact absurd hcv hc
  case pos =>
    exfalso
    rw [pageConflict, List.any_eq_true] at hc
    obtain ⟨r, hr, hcond⟩ := hc
    obtain ⟨hrp, hrc, hri⟩ :
        r.path ≠ path ∧ r.chapter_id = cid ∧ r.page_index = idx :=
      of_decide_eq_true hcond
    have hmem_op : Op.pageUp id cid idx path mime size mtime ∈
        A ++ Op.pageUp id cid idx path mime size mtime :: B :=
      List.mem_append_right A (List.mem_cons_self _ _)
    rcases page_provenance _ d1 db hrun r hr with ⟨o2, ho2, id3, mime3, size3, mtime3, ho⟩ |
        ⟨hmem, hnor⟩
    · have hpc := hcompat o2 ho2 _ hmem_op
      rw [ho] at hpc
      dsimp only [pageCompat] at hpc
      rcases of_decide_eq_true hpc with hn | hp2
      · exact hn ⟨hrc, hri⟩
      · exact hrp hp2
    · obtain ⟨dA, dA2, hA, happ, hB⟩ := runFlat_split A _ B db d1 hrun
      obtain ⟨hconf, h2⟩ := applyOp_pageUp_inv id cid idx path mime size mtime dA dA2 happ
      have hnoA : ∀ o3 ∈ A, o3.pagePathOf ≠ some r.path :=
        fun o3 h3 => hnor o3 (List.mem_append_left _ h3)
      have hrA : r ∈ dA.page := (runFlat_page_frame A dA r.path db hA hnoA).1 r hmem rfl
      have hne2 : path ≠ r.path := fun he =>
        hnor _ hmem_op (congrArg Option.some he)
      have hrW : r ∈ pageWrite dA.page id cid idx path mime size mtime := by
        rw [pageWrite]
        by_cases hany : (dA.page.any fun r => r.path = path) = true
        · rw [if_pos hany]
          exact List.mem_map.mpr ⟨r, hrA, if_neg (fun hc2 => hne2 hc2.symm)⟩
        · rw [if_neg hany]
          exact List.mem_append_left _ hrA
      rw [pageConflict] at hconf
      exact (List.any_eq_false.mp hconf r hrW) (decide_eq_true ⟨hrp, hrc, hri⟩)

theorem applyOp_second (ops : List Op) (db d1 : DB) (A : List Op) (o : Op) (B : List Op)
    (hrun : runFlat ops db = .ok d1) (hsplit : ops = A ++ o :: B) (hgood : OpsGood ops) :
    applyOp o d1 = .ok d1 := by
  obtain ⟨hnp, hnc, hnm, hnf, hcompat, hpw⟩ := hgood
  subst hsplit
  cases o with
  | mangaUp id title path =>
    have hno : ∀ o2 ∈ B, o2.mangaPathOf ≠ some path :=
      filterMap_no_later Op.mangaPathOf path A _ B hnm rfl
    have hw := last_manga_write A B id title path db d1 hrun hno
    dsimp only [applyOp]
    rw [mangaUpsert_id d1.manga id title path hw.1 hw.2]
  | chapterUp id mangaId title number path pageCount mtime =>
    have hno : ∀ o2 ∈ B, o2.chapterPathOf ≠ some path :=
      filterMap_no_later Op.chapterPathOf path A _ B hnc rfl
    have hw := last_chapter_write A B id mangaId title number path pageCount mtime db d1
      hrun hno
    dsimp only [applyOp]
    rw [chapterUpsert_id d1.chapter id mangaId title number path pageCount mtime hw.1 hw.2]
  | finalize mid c p ls =>
    have hno1 : ∀ o2 ∈ B, o2.finIdOf ≠ some mid :=
      filterMap_no_later Op.finIdOf mid A _ B hnf rfl
    have hno2 : ∀ o2 ∈ B, o2.mangaIdOf ≠ some mid := by
      intro o2 h2 hm
      have hok := pairwise_no_later A _ B hpw o2 h2
      cases o2 with
      | mangaUp id3 t3 p3 =>
        have hmid : id3 = mid := Option.some.inj hm
        dsimp only [finMangaOk] at hok
        exact (of_decide_eq_true hok) hmid
      | chapterUp a b c2 d e f g => exact Option.noConfusion hm
      | pageUp a b c2 d e f g => exact Option.noConfusion hm
      | finalize a b c2 d => exact Option.noConfusion hm
    have hw := last_finalize A B mid c p ls db d1 hrun hno1 hno2
    dsimp only [applyOp]
    rw [finalize_id d1.manga mid c p ls hw]
  | pageUp id cid idx path mime size mtime =>
    have hno : ∀ o2 ∈ B, o2.pagePathOf ≠ some path :=
      filterMap_no_later Op.pagePathOf path A _ B hnp rfl
    have hw := last_page_write A B id cid idx path mime size mtime db d1 hrun hno
    have hnoconf := second_run_no_conflict A B id cid idx path mime size mtime db d1 hrun
      hcompat
    dsimp only [applyOp]
    rw [pageWrite_id d1.page id cid idx path mime size mtime hw.1 hw.2]
    rw [if_neg (fun hc => Bool.false_ne_true (hnoconf.symm.trans hc))]

theorem runFlat_idem (ops : List Op) (db d1 : DB)
    (hrun : runFlat ops db = .ok d1) (hgood : OpsGood ops) :
    runFlat ops d1 = .ok d1 := by
  suffices h : ∀ B A, ops = A ++ B → runFlat B d1 = .ok d1 by
    exact h ops [] rfl
  intro B
  induction B with
  | nil =>
    intro A hs
    rfl
  | cons o rest ih =>
    intro A hs
    rw [runFlat, applyOp_second ops db d1 A o rest hrun hs hgood]
    exact ih (A ++ [o]) (by rw [hs, List.append_cons])

/-- C4: Running `Scan` twice over the same unchanged filesystem state is
idempotent: if a first run over roots succeeds, turning the database into
`db1`, a second run over the same filesystem and roots succeeds and leaves
the database exactly at `db1` — identical rows (titles, chapters, pages),
identical stable IDs, identical page-index assignments, identical counts.
The `OpsGood` side condition states that the scan's statement sequence
writes each path key at most once and that equal `(chapter_id, page_index)`
keys only arise from the same path; it holds for any configuration whose
library roots do not overlap, given the spec's standing assumption that
`stableID` is collision-free on the scanned paths, and it is decidable
(checked by `decide` in the witness). -/
theorem scan_rescan_idempotent (fs : FS) (roots : List String) (db db1 : DB) (st1 : ScanSt)
    (h1 : Scan noFaults none fs roots db = (db1, st1, none))
    (hgood : OpsGood (opsOf fs roots)) :
    ∃ st2, Scan noFaults none fs roots db1 = (db1, st2, none) := by
  have hb := scan_flat_bridge fs roots db
  cases hflat : runFlat (opsOf fs roots) db with
  | error e =>
    rw [hflat] at hb
    obtain ⟨d2, st2, hb⟩ := hb
    rw [h1] at hb
    exact absurd hb (by simp)
  | ok d =>
    rw [hflat] at hb
    dsimp only at hb
    obtain ⟨st2, hb⟩ := hb
    have hd : d = db1 := by
      have h3 := hb.symm.trans h1
      exact (Prod.mk.injEq _ _ _ _).mp h3 |>.1
    subst hd
    have hidem := runFlat_idem (opsOf fs roots) db d hflat hgood
    have hb2 := scan_flat_bridge fs roots d
    rw [hidem] at hb2
    dsimp only at hb2
    exact hb2

set_option maxRecDepth 1000000 in
/-- Witness for C4 at a concrete library: one root, one title `T` with one
chapter `Cha` holding two image pages (and a first successful scan from an
empty database); the side conditions are discharged by evaluation. -/
theorem scan_rescan_idempotent_witness :
    ∃ st2, Scan noFaults none
        [⟨["lib"], true, 0, 0⟩, ⟨["lib", "T"], true, 0, 0⟩,
         ⟨["lib", "T", "Cha"], true, 0, 3⟩,
         ⟨["lib", "T", "Cha", "b.jpg"], false, 2, 2⟩,
         ⟨["lib", "T", "Cha", "a.png"], false, 1, 5⟩] ["/lib"]
        ((Scan noFaults none
          [⟨["lib"], true, 0, 0⟩, ⟨["lib", "T"], true, 0, 0⟩,
           ⟨["lib", "T", "Cha"], true, 0, 3⟩,
           ⟨["lib", "T", "Cha", "b.jpg"], false, 2, 2⟩,
           ⟨["lib", "T", "Cha", "a.png"], false, 1, 5⟩] ["/lib"] ⟨[], [], [], []⟩).1) =
      (((Scan noFaults none
          [⟨["lib"], true, 0, 0⟩, ⟨["lib", "T"], true, 0, 0⟩,
           ⟨["lib", "T", "Cha"], true, 0, 3⟩,
           ⟨["lib", "T", "Cha", "b.jpg"], false, 2, 2⟩,
           ⟨["lib", "T", "Cha", "a.png"], false, 1, 5⟩] ["/lib"] ⟨[], [], [], []⟩).1), st2,
        none) :=
  scan_rescan_idempotent
    [⟨["lib"], true, 0, 0⟩, ⟨["lib", "T"], true, 0, 0⟩,
     ⟨["lib", "T", "Cha"], true, 0, 3⟩,
     ⟨["lib", "T", "Cha", "b.jpg"], false, 2, 2⟩,
     ⟨["lib", "T", "Cha", "a.png"], false, 1, 5⟩] ["/lib"] ⟨[], [], [], []⟩ _
    ((Scan noFaults none
      [⟨["lib"], true, 0, 0⟩, ⟨["lib", "T"], true, 0, 0⟩,
       ⟨["lib", "T", "Cha"], true, 0, 3⟩,
       ⟨["lib", "T", "Cha", "b.jpg"], false, 2, 2⟩,
       ⟨["lib", "T", "Cha", "a.png"], false, 1, 5⟩] ["/lib"] ⟨[], [], [], []⟩).2.1)
    (by rfl) (by decide)

end Manga
